import Mathlib

/-!
# Module integrity checker: the init hook of `src/main.go`

A shallow embedding of `handleInit`, `calculateHash`, `isHidden` and
`writeLockFile` from `src/main.go`, together with the parts of the Go standard
library they rest on (`crypto/sha256`, `encoding/hex`, `path/filepath`), and
the properties of the specification checked against them.

Conventions of the embedding:

* a file tree is a `Node`; a directory lists its entries in the order the
  filesystem enumerates them, `filepath.Walk` sorts the names itself;
* a regular file is either readable (its bytes are known) or not (reading it
  fails); directories are taken to be listable and symbolic links are left out,
  so that `os.Stat` and `os.Lstat` agree; `os.Stat` either finds an object or
  reports that it does not exist, its other failures are left out;
* `walk` carries fuel for the nesting depth; `filepathWalk` gives it the depth of
  the tree plus one, which `walk_isSome` shows to be enough;
* the hash accumulator (`hasher`) is the list of bytes written to it so far,
  `Sum` is SHA-256 of that list;
* Go maps are key-sorted association lists, which is also the order in which
  `json.MarshalIndent` emits them, so the same value stands for the parsed
  content of the lock file;
* the run of `handleInit` is a pure function of a `World` and returns what it
  returned, the trace of lock-file and hashing events, and the lock file it
  left on disk.
-/

namespace IntegrityChecker

/-! ## SHA-256 (FIPS 180-4), as provided by `crypto/sha256` -/

namespace Sha256

/-- Round constants. -/
def K : List Nat := [
  0x428a2f98, 0x71374491, 0xb5c0fbcf, 0xe9b5dba5, 0x3956c25b, 0x59f111f1, 0x923f82a4, 0xab1c5ed5,
  0xd807aa98, 0x12835b01, 0x243185be, 0x550c7dc3, 0x72be5d74, 0x80deb1fe, 0x9bdc06a7, 0xc19bf174,
  0xe49b69c1, 0xefbe4786, 0x0fc19dc6, 0x240ca1cc, 0x2de92c6f, 0x4a7484aa, 0x5cb0a9dc, 0x76f988da,
  0x983e5152, 0xa831c66d, 0xb00327c8, 0xbf597fc7, 0xc6e00bf3, 0xd5a79147, 0x06ca6351, 0x14292967,
  0x27b70a85, 0x2e1b2138, 0x4d2c6dfc, 0x53380d13, 0x650a7354, 0x766a0abb, 0x81c2c92e, 0x92722c85,
  0xa2bfe8a1, 0xa81a664b, 0xc24b8b70, 0xc76c51a3, 0xd192e819, 0xd6990624, 0xf40e3585, 0x106aa070,
  0x19a4c116, 0x1e376c08, 0x2748774c, 0x34b0bcb5, 0x391c0cb3, 0x4ed8aa4a, 0x5b9cca4f, 0x682e6ff3,
  0x748f82ee, 0x78a5636f, 0x84c87814, 0x8cc70208, 0x90befffa, 0xa4506ceb, 0xbef9a3f7, 0xc67178f2]

/-- Truncation to a 32-bit word. -/
def w32 (x : Nat) : Nat := x % 4294967296

/-- Rotate a 32-bit word right by `n` bits. -/
def rotr (x n : Nat) : Nat := w32 ((x >>> n) ||| (x <<< (32 - n)))

/-- The eight working words. -/
structure State where
  a : Nat
  b : Nat
  c : Nat
  d : Nat
  e : Nat
  f : Nat
  g : Nat
  h : Nat

/-- Initial hash value. -/
def init : State :=
  ⟨0x6a09e667, 0xbb67ae85, 0x3c6ef372, 0xa54ff53a, 0x510e527f, 0x9b05688c, 0x1f83d9ab, 0x5be0cd19⟩

/-- One round of the compression function, on a pair (constant, schedule word). -/
def round (s : State) (kw : Nat × Nat) : State :=
  let s1 := rotr s.e 6 ^^^ rotr s.e 11 ^^^ rotr s.e 25
  let ch := (s.e &&& s.f) ^^^ ((s.e ^^^ 4294967295) &&& s.g)
  let t1 := w32 (s.h + s1 + ch + kw.1 + kw.2)
  let s0 := rotr s.a 2 ^^^ rotr s.a 13 ^^^ rotr s.a 22
  let maj := (s.a &&& s.b) ^^^ (s.a &&& s.c) ^^^ (s.b &&& s.c)
  let t2 := w32 (s0 + maj)
  ⟨w32 (t1 + t2), s.a, s.b, s.c, w32 (s.d + t1), s.e, s.f, s.g⟩

/-- Extend the message schedule by `n` words; `ws` holds the words so far, newest first. -/
def schedule : Nat → List Nat → List Nat
  | 0, ws => ws
  | n + 1, ws =>
    let w2 := ws.getD 1 0
    let w7 := ws.getD 6 0
    let w15 := ws.getD 14 0
    let w16 := ws.getD 15 0
    let s0 := rotr w15 7 ^^^ rotr w15 18 ^^^ (w15 >>> 3)
    let s1 := rotr w2 17 ^^^ rotr w2 19 ^^^ (w2 >>> 10)
    schedule n (w32 (w16 + s0 + w7 + s1) :: ws)

/-- Big-endian 32-bit words of a byte string. -/
def words : List Nat → List Nat
  | a :: b :: c :: d :: rest => (a * 16777216 + b * 65536 + c * 256 + d) :: words rest
  | _ => []

/-- Process one 64-byte block. -/
def block (s : State) (bs : List Nat) : State :=
  let w := (schedule 48 (words bs).reverse).reverse
  let t := (K.zip w).foldl round s
  ⟨w32 (s.a + t.a), w32 (s.b + t.b), w32 (s.c + t.c), w32 (s.d + t.d),
   w32 (s.e + t.e), w32 (s.f + t.f), w32 (s.g + t.g), w32 (s.h + t.h)⟩

/-- Process `n` consecutive 64-byte blocks. -/
def blocks : Nat → State → List Nat → State
  | 0, s, _ => s
  | n + 1, s, bs => blocks n (block s (bs.take 64)) (bs.drop 64)

/-- The `k` low-order bytes of `n`, most significant first. -/
def be (n : Nat) : Nat → List Nat
  | 0 => []
  | k + 1 => (n >>> (8 * k)) % 256 :: be n k

/-- Message padding: a one bit, zeros, and the bit length on 64 bits. -/
def pad (msg : List Nat) : List Nat :=
  msg ++ 128 :: List.replicate ((119 - msg.length % 64) % 64) 0 ++ be (8 * msg.length) 8

/-- The 32-byte digest of a byte string. -/
def sum (msg : List Nat) : List Nat :=
  let p := pad msg
  let s := blocks (p.length / 64) init p
  [s.a, s.b, s.c, s.d, s.e, s.f, s.g, s.h].flatMap (fun w => be w 4)

end Sha256

/-! ## Bytes, hexadecimal encoding and the hash accumulator -/

/-- A byte. -/
abbrev Byte := Fin 256

/-- The table of `encoding/hex`. -/
def hextable : List Char :=
  ['0', '1', '2', '3', '4', '5', '6', '7', '8', '9', 'a', 'b', 'c', 'd', 'e', 'f']

/-- One hexadecimal digit. -/
def hexDigit (n : Nat) : Char := hextable.getD n '0'

/-- Model of `hex.EncodeToString`: two digits per byte, high nibble first. -/
def hexEncodeToString (src : List Nat) : String :=
  String.mk (src.flatMap (fun v => [hexDigit (v / 16), hexDigit (v % 16)]))

/-- The state of `sha256.New()`: the bytes written to it so far. -/
abbrev Hasher := List Byte

/-- Model of `hasher.Sum(nil)`: SHA-256 of everything written. -/
def Hasher.sum (h : Hasher) : List Nat := Sha256.sum (h.map Fin.val)

/-! ## `path/filepath` on a Unix system -/

/-- Split a path at every separator. -/
def splitSep : List Char → List (List Char)
  | [] => [[]]
  | c :: cs =>
    match splitSep cs with
    | [] => [[c]]
    | seg :: rest => if c = '/' then [] :: seg :: rest else (c :: seg) :: rest

/-- Join path elements with a separator. -/
def joinSep : List (List Char) → List Char
  | [] => []
  | [seg] => seg
  | seg :: rest => seg ++ '/' :: joinSep rest

/-- The element loop of `filepath.Clean`: `out` is the output so far, last element first.
Empty and `.` elements are dropped, `..` removes the element before it when there
is one to remove, is dropped at the root, and is kept otherwise. -/
def cleanElems (rooted : Bool) : List (List Char) → List (List Char) → List (List Char)
  | out, [] => out.reverse
  | out, seg :: rest =>
    if seg = [] ∨ seg = ['.'] then cleanElems rooted out rest
    else if seg = ['.', '.'] then
      match out with
      | top :: below =>
        if top = ['.', '.'] then cleanElems rooted (seg :: out) rest
        else cleanElems rooted below rest
      | [] => if rooted then cleanElems rooted [] rest else cleanElems rooted [seg] rest
    else cleanElems rooted (seg :: out) rest

/-- Model of `filepath.Clean`. -/
def filepathClean (path : String) : String :=
  match path.toList with
  | [] => "."
  | c :: cs =>
    let rooted := decide (c = '/')
    let body := joinSep (cleanElems rooted [] (splitSep (c :: cs)))
    if rooted then String.mk ('/' :: body)
    else if body = [] then "." else String.mk body

/-- Model of `filepath.Join`: leading empty elements are ignored, the rest is joined
with separators and cleaned. -/
def filepathJoin : List String → String
  | [] => ""
  | e :: rest =>
    if e = "" then filepathJoin rest
    else filepathClean (String.mk (joinSep ((e :: rest).map String.toList)))

/-- Remove trailing separators. -/
def stripTrailingSep (cs : List Char) : List Char :=
  (cs.reverse.dropWhile (fun c => c = '/')).reverse

/-- Model of `filepath.Base`: the last element of the path. -/
def filepathBase (path : String) : String :=
  match path.toList with
  | [] => "."
  | c :: cs =>
    match (splitSep (stripTrailingSep (c :: cs))).getLast? with
    | none => "/"
    | some seg => if seg = [] then "/" else String.mk seg

/-! ## Constants and data model of `src/main.go` -/

/-- Directory of the module checkouts. -/
def modulesDir : String := ".terraform/modules"

/-- The module-resolution record. -/
def modulesMetadataFile : String := ".terraform/modules/modules.json"

/-- Host identifier of the registry. -/
def registryURL : String := "registry.terraform.io"

/-- The lock file. -/
def hashesFile : String := ".module_hashes.json"

/-- One element of `ModulesMetadata.Modules`. -/
structure Module where
  Source : String
  Key : String
deriving DecidableEq, Repr

/-- The parsed metadata record. -/
structure ModulesMetadata where
  Modules : List Module
deriving DecidableEq, Repr

/-- A filesystem object: a regular file (`none` when it cannot be read) or a
directory with its entries in enumeration order. -/
inductive Node where
  | file (content : Option (List Byte))
  | dir (entries : List (String × Node))

/-- Model of `info.IsDir()`. -/
def Node.isDir : Node → Bool
  | .file _ => false
  | .dir _ => true

mutual
/-- Nesting depth of a tree. -/
def Node.depth : Node → Nat
  | .file _ => 0
  | .dir es => entriesDepth es + 1
/-- Largest depth among the entries of a directory. -/
def entriesDepth : List (String × Node) → Nat
  | [] => 0
  | (_, c) :: rest => max (Node.depth c) (entriesDepth rest)
end

/-- Byte-wise comparison of two names (code point order is UTF-8 byte order). -/
def charsLE : List Char → List Char → Bool
  | [], _ => true
  | _ :: _, [] => false
  | a :: as, b :: bs => decide (a.toNat < b.toNat) || (decide (a.toNat = b.toNat) && charsLE as bs)

/-- Order on entry names used by `sort.Strings`. -/
def nameLE (a b : String) : Prop := charsLE a.toList b.toList = true

instance nameLE.decidable : DecidableRel nameLE := fun a b =>
  inferInstanceAs (Decidable (charsLE a.toList b.toList = true))

/-- Model of `readDirNames`: the names of a directory, sorted. -/
def readDirNames (entries : List (String × Node)) : List String :=
  List.insertionSort nameLE (entries.map Prod.fst)

/-- Errors travelling through `filepath.Walk`: the `filepath.SkipDir` sentinel and
genuine I/O failures. -/
inductive WalkErr where
  | skipDir
  | ioErr
deriving DecidableEq, Repr

/-- Model of `isHidden`: the name is not empty and starts with a dot. -/
def isHidden (name : String) : Bool :=
  match name.toList with
  | [] => false
  | c :: _ => decide (c = '.')

/-- The callback `calculateHash` passes to `filepath.Walk`. `name` is `info.Name()`,
`info` the object at `path`, `err` the error `Walk` reports for it. -/
def walkFn (hasher : Hasher) (name : String) (info : Node) (err : Option WalkErr) :
    Hasher × Option WalkErr :=
  match err with
  | some e => (hasher, some e)
  | none =>
    if info.isDir && isHidden name then (hasher, some .skipDir)
    else
      match info with
      | .dir _ => (hasher, none)
      | .file none => (hasher, some .ioErr)
      | .file (some data) => (hasher ++ data, none)

/-- The loop of `filepath.walk` over the sorted names of a directory. `walkChild` is
the recursive call; `none` means that it ran out of fuel. -/
def walkDir (walkChild : String → Node → Hasher → Option (Hasher × Option WalkErr))
    (entries : List (String × Node)) : List String → Hasher → Option (Hasher × Option WalkErr)
  | [], h => some (h, none)
  | name :: names, h =>
    match entries.lookup name with
    | none => some (walkFn h name (.file none) (some .ioErr))
    | some child =>
      match walkChild name child h with
      | none => none
      | some (h1, none) => walkDir walkChild entries names h1
      | some (h1, some e) =>
        if !child.isDir || e ≠ .skipDir then some (h1, some e)
        else walkDir walkChild entries names h1

/-- Model of `filepath.walk`, with fuel bounding the nesting depth. -/
def walk : Nat → String → Node → Hasher → Option (Hasher × Option WalkErr)
  | 0, _, _, _ => none
  | fuel + 1, name, info, h =>
    match info with
    | .file c => some (walkFn h name (.file c) none)
    | .dir es =>
      match walkFn h name (.dir es) none with
      | (h1, some e) => some (h1, some e)
      | (h1, none) => walkDir (walk fuel) es (readDirNames es) h1

/-- Model of `filepath.Walk` with the callback of `calculateHash`: `stat` answers
`os.Lstat`, the name of the root is the last element of its path, and a
`SkipDir` that reaches the top is not an error. -/
def filepathWalk (stat : String → Option Node) (root : String) (h : Hasher) :
    Hasher × Option WalkErr :=
  let r :=
    match stat root with
    | none => walkFn h (filepathBase root) (.file none) (some .ioErr)
    | some info =>
      match walk (info.depth + 1) (filepathBase root) info h with
      | none => (h, some .ioErr)
      | some r => r
  match r with
  | (h1, some .skipDir) => (h1, none)
  | (h1, e) => (h1, e)

deriving instance DecidableEq for Except

/-- Model of `calculateHash`. -/
def calculateHash (stat : String → Option Node) (path : String) : Except WalkErr String :=
  match filepathWalk stat path [] with
  | (_, some e) => .error e
  | (hasher, none) => .ok (hexEncodeToString hasher.sum)

/-! ## The lock mapping and the world `handleInit` runs in -/

/-- A Go `map[string]string`, kept sorted by key. -/
abbrev GoMap := List (String × String)

/-- Map lookup `m[k]`. -/
def mapGet (m : GoMap) (k : String) : Option String := List.lookup k m

/-- Map update `m[k] = v`. -/
def mapSet : GoMap → String → String → GoMap
  | [], k, v => [(k, v)]
  | (k1, v1) :: rest, k, v =>
    if k = k1 then (k, v) :: rest
    else if nameLE k k1 then (k, v) :: (k1, v1) :: rest
    else (k1, v1) :: mapSet rest k v

/-- State of the metadata record on disk. -/
inductive MetadataFile where
  | absent
  | unreadable
  | malformed
  | valid (metadata : ModulesMetadata)
deriving DecidableEq, Repr

/-- State of the lock file on disk: absent, present but unreadable, present but not
a JSON object of strings, or holding a mapping. -/
inductive LockFile where
  | absent
  | unreadable
  | corrupt
  | valid (hashes : GoMap)
deriving DecidableEq, Repr

/-- Everything `handleInit` observes. `stat` answers `os.Stat` for a cleaned path
(the checkouts are not touched by the run), `writeFault` is `none` when writing the
lock file works and otherwise the state a failed write leaves behind, `terraformOk`
tells whether the final `terraform init` succeeds. -/
structure World where
  stat : String → Option Node
  metadata : MetadataFile
  lock : LockFile
  writeFault : Option LockFile
  terraformOk : Bool

/-- Errors `handleInit` returns. -/
inductive InitError where
  | readMetadata
  | parseMetadata
  | readHashes
  | parseHashes
  | calculateHash (moduleKey : String)
  | hashConsistency
  | writeLockFile
deriving DecidableEq, Repr

/-- How a run ends: `handleInit` returns (`none` is `nil`), or the process exits
inside `runTerraform`. -/
inductive Outcome where
  | returned (err : Option InitError)
  | exited (code : Nat)
deriving DecidableEq, Repr

/-- Observable steps of a run. -/
inductive Event where
  | statLock
  | readLock
  | hash (path : String)
  | writeLock (hashes : GoMap)
  | terraformInit
deriving DecidableEq, Repr

/-- Result of a run of `handleInit`. -/
structure Run where
  outcome : Outcome
  events : List Event
  lock : LockFile
deriving DecidableEq, Repr

/-- Does `s` contain `substr` from some position on. -/
def containsChars (substr : List Char) : List Char → Bool
  | [] => substr.isPrefixOf []
  | c :: cs => substr.isPrefixOf (c :: cs) || containsChars substr cs

/-- Model of `strings.Contains`. -/
def stringsContains (s substr : String) : Bool := containsChars substr.toList s.toList

/-- The filter loop of `handleInit` (lines 77-82): `acc` is `registryModules` so far. -/
def registryModules : List Module → List String → List String
  | [], acc => acc
  | module :: rest, acc =>
    if stringsContains module.Source registryURL then registryModules rest (acc ++ [module.Key])
    else registryModules rest acc

/-- Loading of the lock file in `handleInit` (lines 89-102), with its trace. -/
def loadHashes : LockFile → Except InitError GoMap × List Event
  | .absent => (.ok [], [.statLock])
  | .unreadable => (.error .readHashes, [.statLock, .readLock])
  | .corrupt => (.error .parseHashes, [.statLock, .readLock])
  | .valid hashes => (.ok hashes, [.statLock, .readLock])

/-- Model of `writeLockFile`: the error, if any, and the lock file left on disk. -/
def writeLockFile (w : World) (hashes : GoMap) : Option InitError × LockFile :=
  match w.writeFault with
  | some left => (some .writeLockFile, left)
  | none => (none, .valid hashes)

/-- Path of the checkout of a module. -/
def modulePathOf (moduleKey : String) : String := filepathJoin [modulesDir, moduleKey]

/-- Name of a module: the last element of its checkout path. -/
def moduleNameOf (moduleKey : String) : String := filepathBase (modulePathOf moduleKey)

/-- The validation loop of `handleInit` (lines 105-130): `updatedHashes` is the map
built so far, `events` the trace so far. -/
def validate (stat : String → Option Node) (hashes : GoMap) :
    List String → GoMap → List Event → Except InitError GoMap × List Event
  | [], updatedHashes, events => (.ok updatedHashes, events)
  | moduleKey :: rest, updatedHashes, events =>
    let modulePath := modulePathOf moduleKey
    match stat modulePath with
    | none => validate stat hashes rest updatedHashes events
    | some _ =>
      match calculateHash stat modulePath with
      | .error _ => (.error (.calculateHash moduleKey), events ++ [.hash modulePath])
      | .ok newHash =>
        let moduleName := filepathBase modulePath
        match mapGet hashes moduleName with
        | some previousHash =>
          if previousHash ≠ newHash then (.error .hashConsistency, events ++ [.hash modulePath])
          else validate stat hashes rest (mapSet updatedHashes moduleName newHash)
            (events ++ [.hash modulePath])
        | none =>
          validate stat hashes rest (mapSet updatedHashes moduleName newHash)
            (events ++ [.hash modulePath])

/-- Model of `handleInit`. -/
def handleInit (w : World) : Run :=
  match w.stat modulesDir with
  | none => ⟨.returned none, [], w.lock⟩
  | some _ =>
    match w.metadata with
    | .absent => ⟨.returned none, [], w.lock⟩
    | .unreadable => ⟨.returned (some .readMetadata), [], w.lock⟩
    | .malformed => ⟨.returned (some .parseMetadata), [], w.lock⟩
    | .valid metadata =>
      let mods := registryModules metadata.Modules []
      if mods.length = 0 then ⟨.returned none, [], w.lock⟩
      else
        match loadHashes w.lock with
        | (.error e, ev) => ⟨.returned (some e), ev, w.lock⟩
        | (.ok hashes, ev) =>
          match validate w.stat hashes mods [] ev with
          | (.error e, ev1) => ⟨.returned (some e), ev1, w.lock⟩
          | (.ok updatedHashes, ev1) =>
            let written :=
              if updatedHashes.length > 0 then
                let r := writeLockFile w updatedHashes
                (r.1, ev1 ++ [.writeLock updatedHashes], r.2)
              else (none, ev1, w.lock)
            match written with
            | (some e, ev2, lock) => ⟨.returned (some e), ev2, lock⟩
            | (none, ev2, lock) =>
              if w.terraformOk then ⟨.returned none, ev2 ++ [.terraformInit], lock⟩
              else ⟨.exited 1, ev2 ++ [.terraformInit], lock⟩

/-! ## Definitions used to state the properties -/

/-- Names of the entries of a directory, in enumeration order. -/
def entryNames (entries : List (String × Node)) : List String := entries.map Prod.fst

mutual
/-- Every regular file of the tree can be read. -/
def Node.readable : Node → Bool
  | .file content => content.isSome
  | .dir es => entriesReadable es
/-- Every entry of a directory is readable. -/
def entriesReadable : List (String × Node) → Bool
  | [] => true
  | (_, c) :: rest => Node.readable c && entriesReadable rest
end

mutual
/-- No directory of the tree holds two entries of the same name. -/
def Node.distinctNames : Node → Bool
  | .file _ => true
  | .dir es => decide (entryNames es).Nodup && entriesDistinct es
/-- Every entry of a directory has distinct names throughout. -/
def entriesDistinct : List (String × Node) → Bool
  | [] => true
  | (_, c) :: rest => Node.distinctNames c && entriesDistinct rest
end

/-- Order of two named items by their names. -/
def byName {α : Type} (a b : String × α) : Prop := nameLE a.1 b.1

instance byName.decidable {α : Type} : DecidableRel (byName : String × α → String × α → Prop) :=
  fun a b => inferInstanceAs (Decidable (nameLE a.1 b.1))

mutual
/-- The digest input in the words of the specification: the contents of the regular
files reached by a depth-first walk that visits the entries of each directory
sorted by name and does not descend into a directory whose name begins with a
dot; a directory contributes nothing of its own. -/
def referenceContents (name : String) : Node → List Byte
  | .file content => content.getD []
  | .dir es =>
    if isHidden name then []
    else (List.insertionSort byName (referenceEntries es)).flatMap Prod.snd
/-- The contribution of each entry of a directory, under its name. -/
def referenceEntries : List (String × Node) → List (String × List Byte)
  | [] => []
  | (n, c) :: rest => (n, referenceContents n c) :: referenceEntries rest
end

/-- The digest in the words of the specification: lowercase hexadecimal SHA-256 of
the reference contents. -/
def referenceDigest (name : String) (tree : Node) : String :=
  hexEncodeToString (Sha256.sum ((referenceContents name tree).map Fin.val))

/-- The digest of the empty byte string. -/
def emptyDigest : String := "e3b0c44298fc1c149afbf4c8996fb92427ae41e4649b934ca495991b7852b855"

/-- Two trees that differ only in the order in which directories enumerate their
entries: entries of a directory permuted, the same inside an entry, any number of
times. -/
inductive Reordered : Node → Node → Prop where
  | same (t : Node) : Reordered t t
  | listing (es es1 : List (String × Node)) :
      (entryNames es).Nodup → es.Perm es1 → Reordered (.dir es) (.dir es1)
  | inside (before after : List (String × Node)) (name : String) (c c1 : Node) :
      Reordered c c1 →
      Reordered (.dir (before ++ (name, c) :: after)) (.dir (before ++ (name, c1) :: after))
  | chain (t t1 t2 : Node) : Reordered t t1 → Reordered t1 t2 → Reordered t t2

/-- One regular file renamed within its directory, content unchanged, to an unused
name that sorts at the same place among the other names of that directory. -/
inductive RenamedInPlace : Node → Node → Prop where
  | here (before after : List (String × Node)) (old new : String) (content : Option (List Byte)) :
      old ∉ entryNames (before ++ after) →
      new ∉ entryNames (before ++ after) →
      (∀ n ∈ entryNames (before ++ after), nameLE n old ↔ nameLE n new) →
      RenamedInPlace (.dir (before ++ (old, .file content) :: after))
        (.dir (before ++ (new, .file content) :: after))
  | inside (before after : List (String × Node)) (name : String) (c c1 : Node) :
      RenamedInPlace c c1 →
      RenamedInPlace (.dir (before ++ (name, c) :: after)) (.dir (before ++ (name, c1) :: after))

/-- One directory with a hidden name added, with any subtree, under an unused name,
among the entries of the root or of a directory further down. -/
inductive HiddenDirAdded : Node → Node → Prop where
  | here (before after : List (String × Node)) (name : String) (sub : List (String × Node)) :
      isHidden name = true →
      name ∉ entryNames (before ++ after) →
      HiddenDirAdded (.dir (before ++ after)) (.dir (before ++ (name, .dir sub) :: after))
  | inside (before after : List (String × Node)) (name : String) (c c1 : Node) :
      HiddenDirAdded c c1 →
      HiddenDirAdded (.dir (before ++ (name, c) :: after)) (.dir (before ++ (name, c1) :: after))

/-- Two named trees on which `filepath.walk` behaves alike: both are directories or
neither is, and with enough fuel the walk gives the same result from any state of
the hasher. -/
def WalkEquiv (name : String) (t : Node) (name1 : String) (t1 : Node) : Prop :=
  t.isDir = t1.isDir ∧
    ∀ (h : Hasher) (f f1 : Nat), t.depth < f → t1.depth < f1 →
      walk f name t h = walk f1 name1 t1 h

/-- The registry modules of a world, as `handleInit` computes them. -/
def World.registryKeys (w : World) : List String :=
  match w.metadata with
  | .valid metadata => registryModules metadata.Modules []
  | _ => []

/-- The mapping `handleInit` loads from the lock file of a world, when loading works. -/
def World.loaded (w : World) : Option GoMap :=
  match (loadHashes w.lock).1 with
  | .ok hashes => some hashes
  | .error _ => none

/-- The same world with another lock file on disk. -/
def World.withLock (w : World) (lock : LockFile) : World :=
  ⟨w.stat, w.metadata, lock, w.writeFault, w.terraformOk⟩

/-! ## Example trees and worlds -/

/-- Look a path, given by its elements, up in a tree. -/
def lookupPath : List (List Char) → Node → Option Node
  | [], t => some t
  | _ :: _, .file _ => none
  | seg :: rest, .dir es =>
    match es.lookup (String.mk seg) with
    | none => none
    | some c => lookupPath rest c

/-- The answers of `os.Stat` when the working directory is the tree `cwd`, for
cleaned relative paths that stay inside it. -/
def statIn (cwd : Node) (path : String) : Option Node :=
  if path = "." then some cwd else lookupPath (splitSep path.toList) cwd

/-- A module checkout holding one file with one byte. -/
def exampleModule (b : Byte) : Node := .dir [("main.tf", .file (some [b]))]

/-- A working directory with a few module checkouts. -/
def exampleCwd : Node :=
  .dir [(".terraform", .dir [("modules", .dir [
    ("mod-a", exampleModule 1),
    ("mod-b", exampleModule 2),
    ("a", .dir [("x", exampleModule 3)]),
    ("b", .dir [("x", exampleModule 4)]),
    (".m", exampleModule 5)])])]

/-- A metadata record naming the given keys as registry modules, and one local module. -/
def exampleMetadata (keys : List String) : MetadataFile :=
  .valid ⟨keys.map (fun k => ⟨"registry.terraform.io/org/" ++ k ++ "/aws", k⟩) ++
    [⟨"./modules/local", "local"⟩]⟩

/-- A world over `exampleCwd` in which writing and `terraform init` work. -/
def exampleWorld (keys : List String) (lock : LockFile) : World :=
  ⟨statIn exampleCwd, exampleMetadata keys, lock, none, true⟩

/-- SHA-256 of the single byte 1: the digest of the checkout `mod-a`. -/
def digestA : String := "4bf5122f344554c53bde2ebb8cd2b7e3d1600ad631c385a5d7cce23c7785459a"

/-- SHA-256 of the single byte 2: the digest of the checkout `mod-b`. -/
def digestB : String := "dbc1b4c900ffe48d575b5da5c638040125f65db0fe3e24494b76ea986457d986"

/-- A world whose metadata names no registry module and whose lock file is corrupt. -/
def localOnlyWorld : World :=
  ⟨statIn exampleCwd, .valid ⟨[⟨"./modules/net", "net"⟩, ⟨"git::https://example.com/vpc.git", "vpc"⟩]⟩,
    .corrupt, none, true⟩


/-- A module tree with a nested directory, a hidden directory and a hidden file. -/
def exampleTree : Node :=
  .dir [("variables.tf", .file (some [3])),
    ("main.tf", .file (some [1, 2])),
    (".git", .dir [("HEAD", .file (some [9]))]),
    ("modules", .dir [("b.tf", .file (some [5])), ("a.tf", .file (some [4]))]),
    (".gitignore", .file (some [7]))]

/-- The tree `exampleTree` with the first two entries of its root enumerated in the
other order. -/
def exampleTreeReordered : Node :=
  .dir [("main.tf", .file (some [1, 2])),
    ("variables.tf", .file (some [3])),
    (".git", .dir [("HEAD", .file (some [9]))]),
    ("modules", .dir [("b.tf", .file (some [5])), ("a.tf", .file (some [4]))]),
    (".gitignore", .file (some [7]))]

/-- A filesystem in which every path leads to the given tree. -/
def statConst (tree : Node) : String → Option Node := fun _ => some tree

/-- A checkout with the two files `a.tf` and `c.tf`. -/
def twoFiles (first : String) : Node :=
  .dir [(first, .file (some [1])), ("c.tf", .file (some [2]))]

set_option maxRecDepth 100000
/-! ## Order on names -/

theorem charsLE_total (a b : List Char) : charsLE a b = true ∨ charsLE b a = true := by
  induction a generalizing b with
  | nil => left; simp [charsLE]
  | cons x xs ih =>
    cases b with
    | nil => right; simp [charsLE]
    | cons y ys =>
      simp only [charsLE, Bool.or_eq_true, Bool.and_eq_true, decide_eq_true_eq]
      rcases Nat.lt_trichotomy x.toNat y.toNat with h | h | h
      · exact Or.inl (Or.inl h)
      · rcases ih ys with h1 | h1
        · exact Or.inl (Or.inr ⟨h, h1⟩)
        · exact Or.inr (Or.inr ⟨h.symm, h1⟩)
      · exact Or.inr (Or.inl h)

theorem charsLE_trans (a b c : List Char) (hab : charsLE a b = true) (hbc : charsLE b c = true) :
    charsLE a c = true := by
  induction a generalizing b c with
  | nil => simp [charsLE]
  | cons x xs ih =>
    cases b with
    | nil => simp [charsLE] at hab
    | cons y ys =>
      cases c with
      | nil => simp [charsLE] at hbc
      | cons z zs =>
        simp only [charsLE, Bool.or_eq_true, Bool.and_eq_true, decide_eq_true_eq] at hab hbc ⊢
        rcases hab with h | ⟨h, h1⟩
        · rcases hbc with k | ⟨k, _⟩
          · exact Or.inl (by omega)
          · exact Or.inl (by omega)
        · rcases hbc with k | ⟨k, k1⟩
          · exact Or.inl (by omega)
          · exact Or.inr ⟨by omega, ih ys zs h1 k1⟩

theorem char_eq_of_toNat_eq (x y : Char) (h : x.toNat = y.toNat) : x = y := by
  rw [← Char.ofNat_toNat x, ← Char.ofNat_toNat y, h]

theorem charsLE_antisymm (a b : List Char) (hab : charsLE a b = true) (hba : charsLE b a = true) :
    a = b := by
  induction a generalizing b with
  | nil =>
    cases b with
    | nil => rfl
    | cons y ys => simp [charsLE] at hba
  | cons x xs ih =>
    cases b with
    | nil => simp [charsLE] at hab
    | cons y ys =>
      simp only [charsLE, Bool.or_eq_true, Bool.and_eq_true, decide_eq_true_eq] at hab hba
      rcases hab with h | ⟨h, h1⟩
      · rcases hba with k | ⟨k, _⟩ <;> omega
      · rcases hba with k | ⟨_, k1⟩
        · omega
        · rw [char_eq_of_toNat_eq x y h, ih ys h1 k1]

theorem nameLE_total (a b : String) : nameLE a b ∨ nameLE b a :=
  charsLE_total a.toList b.toList

theorem nameLE_trans {a b c : String} (hab : nameLE a b) (hbc : nameLE b c) : nameLE a c :=
  charsLE_trans a.toList b.toList c.toList hab hbc

theorem nameLE_antisymm {a b : String} (hab : nameLE a b) (hba : nameLE b a) : a = b :=
  String.ext (charsLE_antisymm a.toList b.toList hab hba)

theorem nameLE_refl (a : String) : nameLE a a := (nameLE_total a a).elim id id

theorem sorted_readDirNames (es : List (String × Node)) : List.Sorted nameLE (readDirNames es) :=
  @List.sorted_insertionSort _ nameLE _ ⟨nameLE_total⟩ ⟨fun _ _ _ => nameLE_trans⟩ _

theorem readDirNames_perm (es : List (String × Node)) : (readDirNames es).Perm (entryNames es) :=
  List.perm_insertionSort _ _

theorem sorted_names_unique {l l1 : List String} (hp : l.Perm l1)
    (hs : List.Sorted nameLE l) (hs1 : List.Sorted nameLE l1) : l = l1 :=
  @List.eq_of_perm_of_sorted _ nameLE ⟨fun _ _ => nameLE_antisymm⟩ _ _ hp hs hs1

theorem mem_readDirNames {es : List (String × Node)} {n : String} :
    n ∈ readDirNames es ↔ n ∈ entryNames es :=
  (readDirNames_perm es).mem_iff

/-! ## The registry filter -/

theorem containsChars_iff (sub s : List Char) : containsChars sub s = true ↔ sub <:+: s := by
  induction s with
  | nil => simp [containsChars]
  | cons c cs ih =>
    simp only [containsChars, Bool.or_eq_true, List.isPrefixOf_iff_prefix, ih,
      List.infix_cons_iff]

theorem stringsContains_iff (s substr : String) :
    stringsContains s substr = true ↔ substr.toList <:+: s.toList :=
  containsChars_iff _ _

theorem registryModules_acc (ms : List Module) (acc : List String) :
    registryModules ms acc =
      acc ++ (ms.filter (fun m => decide (registryURL.toList <:+: m.Source.toList))).map
        Module.Key := by
  induction ms generalizing acc with
  | nil => simp [registryModules]
  | cons m rest ih =>
    by_cases h : registryURL.toList <:+: m.Source.toList
    · have hc : stringsContains m.Source registryURL = true := (stringsContains_iff _ _).2 h
      rw [registryModules, if_pos hc, ih]
      simp only [List.filter_cons, decide_eq_true h, if_true, List.map_cons, List.append_assoc,
        List.singleton_append]
    · have hc : ¬ stringsContains m.Source registryURL = true :=
        fun hc => h ((stringsContains_iff _ _).1 hc)
      rw [registryModules, if_neg hc, ih]
      simp only [List.filter_cons, decide_eq_false h, Bool.false_eq_true, if_false]

/-! ## The lock mapping -/

theorem mapGet_mapSet_self (m : GoMap) (k v : String) : mapGet (mapSet m k v) k = some v := by
  induction m with
  | nil => simp [mapSet, mapGet, List.lookup]
  | cons p rest ih =>
    obtain ⟨k1, v1⟩ := p
    unfold mapSet
    by_cases h : k = k1
    · simp [h, mapGet, List.lookup]
    · by_cases h1 : nameLE k k1
      · simp [h, h1, mapGet, List.lookup]
      · have hb : (k == k1) = false := by simpa using h
        simp only [h, h1, if_false, mapGet, List.lookup, hb]
        exact ih

theorem mapGet_mapSet_ne (m : GoMap) (k v n : String) (hn : n ≠ k) :
    mapGet (mapSet m k v) n = mapGet m n := by
  have hb : (n == k) = false := by simpa using hn
  induction m with
  | nil => simp [mapSet, mapGet, List.lookup, hb]
  | cons p rest ih =>
    obtain ⟨k1, v1⟩ := p
    unfold mapSet
    by_cases h : k = k1
    · subst h
      simp [mapGet, List.lookup, hb]
    · by_cases h1 : nameLE k k1
      · simp [h, h1, mapGet, List.lookup, hb]
      · simp only [h, h1, if_false, mapGet, List.lookup]
        cases hk : (n == k1)
        · exact ih
        · rfl

theorem mapSet_ne_nil (m : GoMap) (k v : String) : mapSet m k v ≠ [] := by
  cases m with
  | nil => simp [mapSet]
  | cons p rest =>
    obtain ⟨k1, v1⟩ := p
    unfold mapSet
    split_ifs <;> simp

/-! ## The validation loop -/

theorem validate_skip (stat : String → Option Node) (hashes : GoMap) (k : String)
    (rest : List String) (upd : GoMap) (ev : List Event)
    (hstat : stat (modulePathOf k) = none) :
    validate stat hashes (k :: rest) upd ev = validate stat hashes rest upd ev := by
  simp [validate, hstat]

theorem validate_hashError (stat : String → Option Node) (hashes : GoMap) (k : String)
    (rest : List String) (upd : GoMap) (ev : List Event) (info : Node) (e : WalkErr)
    (hstat : stat (modulePathOf k) = some info)
    (hhash : calculateHash stat (modulePathOf k) = .error e) :
    validate stat hashes (k :: rest) upd ev =
      (.error (.calculateHash k), ev ++ [.hash (modulePathOf k)]) := by
  simp [validate, hstat, hhash]

theorem validate_changed (stat : String → Option Node) (hashes : GoMap) (k : String)
    (rest : List String) (upd : GoMap) (ev : List Event) (info : Node) (h d : String)
    (hstat : stat (modulePathOf k) = some info)
    (hhash : calculateHash stat (modulePathOf k) = .ok h)
    (hprev : mapGet hashes (moduleNameOf k) = some d) (hne : d ≠ h) :
    validate stat hashes (k :: rest) upd ev =
      (.error .hashConsistency, ev ++ [.hash (modulePathOf k)]) := by
  have hprev1 : mapGet hashes (filepathBase (modulePathOf k)) = some d := hprev
  simp [validate, hstat, hhash, hprev1, hne]

theorem validate_accept (stat : String → Option Node) (hashes : GoMap) (k : String)
    (rest : List String) (upd : GoMap) (ev : List Event) (info : Node) (h : String)
    (hstat : stat (modulePathOf k) = some info)
    (hhash : calculateHash stat (modulePathOf k) = .ok h)
    (hprev : ∀ d, mapGet hashes (moduleNameOf k) = some d → d = h) :
    validate stat hashes (k :: rest) upd ev =
      validate stat hashes rest (mapSet upd (moduleNameOf k) h)
        (ev ++ [.hash (modulePathOf k)]) := by
  cases hg : mapGet hashes (filepathBase (modulePathOf k)) with
  | none => simp [validate, hstat, hhash, hg, moduleNameOf]
  | some d =>
    have hd : d = h := hprev d hg
    simp [validate, hstat, hhash, hg, hd, moduleNameOf]

/-- The loop adds no write of the lock file to the trace. -/
theorem validate_events (stat : String → Option Node) (hashes : GoMap) (mods : List String)
    (upd : GoMap) (ev : List Event) (m : GoMap)
    (hm : Event.writeLock m ∈ (validate stat hashes mods upd ev).2) : Event.writeLock m ∈ ev := by
  induction mods generalizing upd ev with
  | nil => simpa [validate] using hm
  | cons k rest ih =>
    cases hstat : stat (modulePathOf k) with
    | none =>
      rw [validate_skip stat hashes k rest upd ev hstat] at hm
      exact ih upd ev hm
    | some info =>
      cases hhash : calculateHash stat (modulePathOf k) with
      | error e =>
        rw [validate_hashError stat hashes k rest upd ev info e hstat hhash] at hm
        simpa using hm
      | ok h =>
        by_cases hprev : ∀ d, mapGet hashes (moduleNameOf k) = some d → d = h
        · rw [validate_accept stat hashes k rest upd ev info h hstat hhash hprev] at hm
          simpa using ih _ _ hm
        · push_neg at hprev
          obtain ⟨d, hd, hne⟩ := hprev
          rw [validate_changed stat hashes k rest upd ev info h d hstat hhash hd hne] at hm
          simpa using hm

/-- A module whose recorded digest differs from the computed one makes the loop fail. -/
theorem validate_tamper (stat : String → Option Node) (hashes : GoMap) (mods : List String)
    (upd : GoMap) (ev : List Event) (k : String) (info : Node) (h d : String)
    (hmem : k ∈ mods)
    (hstat : stat (modulePathOf k) = some info)
    (hhash : calculateHash stat (modulePathOf k) = .ok h)
    (hprev : mapGet hashes (moduleNameOf k) = some d) (hne : d ≠ h) :
    ∃ e, (validate stat hashes mods upd ev).1 = .error e := by
  induction mods generalizing upd ev with
  | nil => simp at hmem
  | cons k1 rest ih =>
    by_cases hk : k = k1
    · subst hk
      rw [validate_changed stat hashes k rest upd ev info h d hstat hhash hprev hne]
      exact ⟨_, rfl⟩
    · have hmem1 : k ∈ rest := by
        rcases List.mem_cons.1 hmem with h0 | h0
        · exact absurd h0 hk
        · exact h0
      cases hstat1 : stat (modulePathOf k1) with
      | none =>
        rw [validate_skip stat hashes k1 rest upd ev hstat1]
        exact ih upd ev hmem1
      | some info1 =>
        cases hhash1 : calculateHash stat (modulePathOf k1) with
        | error e =>
          rw [validate_hashError stat hashes k1 rest upd ev info1 e hstat1 hhash1]
          exact ⟨_, rfl⟩
        | ok h1 =>
          by_cases hprev1 : ∀ d, mapGet hashes (moduleNameOf k1) = some d → d = h1
          · rw [validate_accept stat hashes k1 rest upd ev info1 h1 hstat1 hhash1 hprev1]
            exact ih _ _ hmem1
          · push_neg at hprev1
            obtain ⟨d1, hd1, hne1⟩ := hprev1
            rw [validate_changed stat hashes k1 rest upd ev info1 h1 d1 hstat1 hhash1 hd1 hne1]
            exact ⟨_, rfl⟩

/-- The four ways one iteration of the loop can go. -/
theorem validate_cases (stat : String → Option Node) (hashes : GoMap) (k : String)
    (rest : List String) (upd : GoMap) (ev : List Event) :
    (stat (modulePathOf k) = none ∧
        validate stat hashes (k :: rest) upd ev = validate stat hashes rest upd ev) ∨
    (∃ e, (validate stat hashes (k :: rest) upd ev).1 = .error e) ∨
    (∃ info h, stat (modulePathOf k) = some info ∧
        calculateHash stat (modulePathOf k) = .ok h ∧
        (∀ d, mapGet hashes (moduleNameOf k) = some d → d = h) ∧
        validate stat hashes (k :: rest) upd ev =
          validate stat hashes rest (mapSet upd (moduleNameOf k) h)
            (ev ++ [.hash (modulePathOf k)])) := by
  cases hstat : stat (modulePathOf k) with
  | none => exact Or.inl ⟨rfl, validate_skip stat hashes k rest upd ev hstat⟩
  | some info =>
    cases hhash : calculateHash stat (modulePathOf k) with
    | error e =>
      rw [validate_hashError stat hashes k rest upd ev info e hstat hhash]
      exact Or.inr (Or.inl ⟨_, rfl⟩)
    | ok h =>
      by_cases hprev : ∀ d, mapGet hashes (moduleNameOf k) = some d → d = h
      · exact Or.inr (Or.inr ⟨info, h, rfl, rfl, hprev,
          validate_accept stat hashes k rest upd ev info h hstat hhash hprev⟩)
      · push_neg at hprev
        obtain ⟨d, hd, hne⟩ := hprev
        rw [validate_changed stat hashes k rest upd ev info h d hstat hhash hd hne]
        exact Or.inr (Or.inl ⟨_, rfl⟩)

/-- When the loop succeeds, every module with a checkout was hashed and agrees with
the loaded mapping. -/
theorem validate_ok_inv (stat : String → Option Node) (hashes : GoMap) (mods : List String)
    (upd : GoMap) (ev : List Event) (U : GoMap)
    (hok : (validate stat hashes mods upd ev).1 = .ok U) (k : String) (hmem : k ∈ mods)
    (info : Node) (hstat : stat (modulePathOf k) = some info) :
    ∃ h, calculateHash stat (modulePathOf k) = .ok h ∧
      ∀ d, mapGet hashes (moduleNameOf k) = some d → d = h := by
  induction mods generalizing upd ev with
  | nil => simp at hmem
  | cons k1 rest ih =>
    rcases validate_cases stat hashes k1 rest upd ev with ⟨hs, hv⟩ | ⟨e, he⟩ | ⟨i1, h1, hs, hh, hp, hv⟩
    · rw [hv] at hok
      rcases List.mem_cons.1 hmem with h0 | h0
      · subst h0
        rw [hs] at hstat
        cases hstat
      · exact ih upd ev hok h0
    · rw [he] at hok
      cases hok
    · rw [hv] at hok
      rcases List.mem_cons.1 hmem with h0 | h0
      · subst h0
        exact ⟨h1, hh, hp⟩
      · exact ih _ _ hok h0

/-- A name keeps the digest it has in the map built so far when every later module of
that name has the same digest. -/
theorem validate_get_kept (stat : String → Option Node) (hashes : GoMap) (mods : List String)
    (upd : GoMap) (ev : List Event) (U : GoMap) (n h : String)
    (hok : (validate stat hashes mods upd ev).1 = .ok U)
    (hupd : mapGet upd n = some h)
    (hsame : ∀ k ∈ mods, ∀ info h1, stat (modulePathOf k) = some info → moduleNameOf k = n →
      calculateHash stat (modulePathOf k) = .ok h1 → h1 = h) :
    mapGet U n = some h := by
  induction mods generalizing upd ev with
  | nil =>
    simp only [validate] at hok
    cases hok
    exact hupd
  | cons k1 rest ih =>
    have hrest : ∀ k ∈ rest, ∀ info h1, stat (modulePathOf k) = some info → moduleNameOf k = n →
        calculateHash stat (modulePathOf k) = .ok h1 → h1 = h :=
      fun k hk => hsame k (List.mem_cons_of_mem _ hk)
    rcases validate_cases stat hashes k1 rest upd ev with ⟨_, hv⟩ | ⟨e, he⟩ | ⟨i1, h1, hs, hh, _, hv⟩
    · rw [hv] at hok
      exact ih upd ev hok hupd hrest
    · rw [he] at hok
      cases hok
    · rw [hv] at hok
      refine ih _ _ hok ?_ hrest
      by_cases hn : moduleNameOf k1 = n
      · have : h1 = h := hsame k1 (List.mem_cons_self _ _) i1 h1 hs hn hh
        rw [← hn, this]
        exact mapGet_mapSet_self _ _ _
      · rw [mapGet_mapSet_ne _ _ _ _ (fun hc => hn hc.symm)]
        exact hupd

/-- After a successful loop a module is mapped to its own digest when every later
module of the same name has that digest. -/
theorem validate_get_last (stat : String → Option Node) (hashes : GoMap)
    (pre post : List String) (k : String) (upd : GoMap) (ev : List Event) (U : GoMap)
    (info : Node) (h : String)
    (hok : (validate stat hashes (pre ++ k :: post) upd ev).1 = .ok U)
    (hstat : stat (modulePathOf k) = some info)
    (hhash : calculateHash stat (modulePathOf k) = .ok h)
    (hsame : ∀ k1 ∈ post, ∀ info1 h1, stat (modulePathOf k1) = some info1 →
      moduleNameOf k1 = moduleNameOf k → calculateHash stat (modulePathOf k1) = .ok h1 → h1 = h) :
    mapGet U (moduleNameOf k) = some h := by
  induction pre generalizing upd ev with
  | nil =>
    rcases validate_cases stat hashes k post upd ev with ⟨hs, _⟩ | ⟨e, he⟩ | ⟨i1, h1, _, hh, _, hv⟩
    · rw [hs] at hstat
      cases hstat
    · rw [List.nil_append, he] at hok
      cases hok
    · rw [List.nil_append, hv] at hok
      rw [hhash] at hh
      cases hh
      exact validate_get_kept stat hashes post _ _ U _ h hok (mapGet_mapSet_self _ _ _) hsame
  | cons k1 rest ih =>
    rcases validate_cases stat hashes k1 (rest ++ k :: post) upd ev with
      ⟨_, hv⟩ | ⟨e, he⟩ | ⟨i1, h1, _, _, _, hv⟩
    · rw [List.cons_append, hv] at hok
      exact ih upd ev hok
    · rw [List.cons_append, he] at hok
      cases hok
    · rw [List.cons_append, hv] at hok
      exact ih _ _ hok

/-- Every entry of the map the loop returns was there before or is the digest of a
module with a checkout. -/
theorem validate_get_origin (stat : String → Option Node) (hashes : GoMap) (mods : List String)
    (upd : GoMap) (ev : List Event) (U : GoMap) (n v : String)
    (hok : (validate stat hashes mods upd ev).1 = .ok U) (hget : mapGet U n = some v) :
    mapGet upd n = some v ∨
      ∃ k ∈ mods, ∃ info, stat (modulePathOf k) = some info ∧ moduleNameOf k = n ∧
        calculateHash stat (modulePathOf k) = .ok v := by
  induction mods generalizing upd ev with
  | nil =>
    simp only [validate] at hok
    cases hok
    exact Or.inl hget
  | cons k1 rest ih =>
    rcases validate_cases stat hashes k1 rest upd ev with ⟨_, hv⟩ | ⟨e, he⟩ | ⟨i1, h1, hs, hh, _, hv⟩
    · rw [hv] at hok
      rcases ih upd ev hok with h0 | ⟨k, hk, h0⟩
      · exact Or.inl h0
      · exact Or.inr ⟨k, List.mem_cons_of_mem _ hk, h0⟩
    · rw [he] at hok
      cases hok
    · rw [hv] at hok
      rcases ih _ _ hok with h0 | ⟨k, hk, h0⟩
      · by_cases hn : n = moduleNameOf k1
        · subst hn
          rw [mapGet_mapSet_self] at h0
          cases h0
          exact Or.inr ⟨k1, List.mem_cons_self _ _, i1, hs, rfl, hh⟩
        · rw [mapGet_mapSet_ne _ _ _ _ hn] at h0
          exact Or.inl h0
      · exact Or.inr ⟨k, List.mem_cons_of_mem _ hk, h0⟩

/-- The map the loop returns does not depend on the loaded mapping, as long as the
loaded mapping contradicts no computed digest. -/
theorem validate_rerun (stat : String → Option Node) (hashes hashes1 : GoMap)
    (mods : List String) (upd : GoMap) (ev ev1 : List Event) (U : GoMap)
    (hok : (validate stat hashes mods upd ev).1 = .ok U)
    (hcompat : ∀ k ∈ mods, ∀ info h, stat (modulePathOf k) = some info →
      calculateHash stat (modulePathOf k) = .ok h →
      ∀ d, mapGet hashes1 (moduleNameOf k) = some d → d = h) :
    (validate stat hashes1 mods upd ev1).1 = .ok U := by
  induction mods generalizing upd ev ev1 with
  | nil =>
    simp only [validate] at hok ⊢
    exact hok
  | cons k1 rest ih =>
    have hrest : ∀ k ∈ rest, ∀ info h, stat (modulePathOf k) = some info →
        calculateHash stat (modulePathOf k) = .ok h →
        ∀ d, mapGet hashes1 (moduleNameOf k) = some d → d = h :=
      fun k hk => hcompat k (List.mem_cons_of_mem _ hk)
    rcases validate_cases stat hashes k1 rest upd ev with ⟨hs, hv⟩ | ⟨e, he⟩ | ⟨i1, h1, hs, hh, _, hv⟩
    · rw [hv] at hok
      rw [validate_skip stat hashes1 k1 rest upd ev1 hs]
      exact ih upd ev ev1 hok hrest
    · rw [he] at hok
      cases hok
    · rw [hv] at hok
      rw [validate_accept stat hashes1 k1 rest upd ev1 i1 h1 hs hh
        (hcompat k1 (List.mem_cons_self _ _) i1 h1 hs hh)]
      exact ih _ _ _ hok hrest

/-! ## Runs of `handleInit` -/

theorem loadHashes_of_loaded (w : World) (H : GoMap) (hl : w.loaded = some H) :
    loadHashes w.lock = (.ok H, (loadHashes w.lock).2) := by
  unfold World.loaded at hl
  cases hlock : w.lock <;> simp [hlock, loadHashes] at hl ⊢ <;> exact hl

/-- A run in which the loop fails returns that error and leaves the lock file alone. -/
theorem handleInit_of_validate_error (w : World) (md : ModulesMetadata) (H : GoMap) (d : Node)
    (e : InitError) (hdir : w.stat modulesDir = some d) (hmeta : w.metadata = .valid md)
    (hmods : registryModules md.Modules [] ≠ []) (hl : w.loaded = some H)
    (he : (validate w.stat H (registryModules md.Modules []) [] (loadHashes w.lock).2).1 =
      .error e) :
    handleInit w = ⟨.returned (some e),
      (validate w.stat H (registryModules md.Modules []) [] (loadHashes w.lock).2).2, w.lock⟩ := by
  have hlen : (registryModules md.Modules []).length ≠ 0 := by
    simpa [List.length_eq_zero] using hmods
  have hload := loadHashes_of_loaded w H hl
  rcases hv : validate w.stat H (registryModules md.Modules []) [] (loadHashes w.lock).2 with
    ⟨r, ev1⟩
  rw [hv] at he
  simp only at he
  subst he
  unfold handleInit
  simp only [hdir, hmeta, hlen, if_false]
  rw [hload]
  simp only [hv]

/-- A run in which the loop succeeds: what is returned, traced and left on disk. -/
theorem handleInit_of_validate_ok (w : World) (md : ModulesMetadata) (H U : GoMap) (d : Node)
    (hdir : w.stat modulesDir = some d) (hmeta : w.metadata = .valid md)
    (hmods : registryModules md.Modules [] ≠ []) (hl : w.loaded = some H)
    (hok : (validate w.stat H (registryModules md.Modules []) [] (loadHashes w.lock).2).1 =
      .ok U) :
    handleInit w =
      if U = [] then
        ⟨if w.terraformOk then .returned none else .exited 1,
          (validate w.stat H (registryModules md.Modules []) [] (loadHashes w.lock).2).2 ++
            [.terraformInit], w.lock⟩
      else
        match w.writeFault with
        | some left => ⟨.returned (some .writeLockFile),
            (validate w.stat H (registryModules md.Modules []) [] (loadHashes w.lock).2).2 ++
              [.writeLock U], left⟩
        | none => ⟨if w.terraformOk then .returned none else .exited 1,
            (validate w.stat H (registryModules md.Modules []) [] (loadHashes w.lock).2).2 ++
              [.writeLock U, .terraformInit], .valid U⟩ := by
  have hlen : (registryModules md.Modules []).length ≠ 0 := by
    simpa [List.length_eq_zero] using hmods
  have hload := loadHashes_of_loaded w H hl
  rcases hv : validate w.stat H (registryModules md.Modules []) [] (loadHashes w.lock).2 with
    ⟨r, ev1⟩
  rw [hv] at hok
  simp only at hok
  subst hok
  unfold handleInit
  simp only [hdir, hmeta, hlen, if_false]
  rw [hload]
  simp only [hv]
  by_cases hU : U = []
  · subst hU
    cases w.terraformOk <;> simp
  · have hpos : U.length > 0 := List.length_pos.2 hU
    simp only [hpos, if_true, hU, if_false, writeLockFile]
    cases w.writeFault <;> cases w.terraformOk <;> simp

theorem registryKeys_of_valid (w : World) (md : ModulesMetadata) (hmeta : w.metadata = .valid md) :
    w.registryKeys = registryModules md.Modules [] := by
  simp [World.registryKeys, hmeta]

theorem metadata_of_registryKeys (w : World) (hne : w.registryKeys ≠ []) :
    ∃ md, w.metadata = .valid md ∧ registryModules md.Modules [] ≠ [] := by
  unfold World.registryKeys at hne
  cases hmeta : w.metadata with
  | valid md =>
    rw [hmeta] at hne
    exact ⟨md, rfl, hne⟩
  | absent => simp [hmeta] at hne
  | unreadable => simp [hmeta] at hne
  | malformed => simp [hmeta] at hne

theorem loadHashes_no_write (lock : LockFile) (m : GoMap) :
    Event.writeLock m ∉ (loadHashes lock).2 := by
  cases lock <;> simp [loadHashes]

theorem handleInit_of_not_loaded (w : World) (md : ModulesMetadata) (d : Node)
    (hdir : w.stat modulesDir = some d) (hmeta : w.metadata = .valid md)
    (hmods : registryModules md.Modules [] ≠ []) (hl : w.loaded = none) :
    ∃ e, handleInit w = ⟨.returned (some e), (loadHashes w.lock).2, w.lock⟩ := by
  have hlen : (registryModules md.Modules []).length ≠ 0 := by
    simpa [List.length_eq_zero] using hmods
  unfold World.loaded at hl
  unfold handleInit
  simp only [hdir, hmeta, hlen, if_false]
  cases hlock : w.lock <;> simp [hlock, loadHashes] at hl ⊢

/-- A run that leaves another lock file than it found went through the whole of
`handleInit` and wrote the map the loop returned. -/
theorem handleInit_lock_changed (w : World) (hch : (handleInit w).lock ≠ w.lock) :
    ∃ d md H U, w.stat modulesDir = some d ∧ w.metadata = .valid md ∧
      registryModules md.Modules [] ≠ [] ∧ w.loaded = some H ∧
      (validate w.stat H (registryModules md.Modules []) [] (loadHashes w.lock).2).1 = .ok U ∧
      U ≠ [] := by
  cases hdir : w.stat modulesDir with
  | none => exact absurd (by simp [handleInit, hdir]) hch
  | some d =>
    cases hmeta : w.metadata with
    | absent => exact absurd (by simp [handleInit, hdir, hmeta]) hch
    | unreadable => exact absurd (by simp [handleInit, hdir, hmeta]) hch
    | malformed => exact absurd (by simp [handleInit, hdir, hmeta]) hch
    | valid md =>
      by_cases hmods : registryModules md.Modules [] = []
      · exact absurd (by simp [handleInit, hdir, hmeta, hmods]) hch
      · cases hl : w.loaded with
        | none =>
          obtain ⟨e, he⟩ := handleInit_of_not_loaded w md d hdir hmeta hmods hl
          exact absurd (by rw [he]) hch
        | some H =>
          cases hv : (validate w.stat H (registryModules md.Modules []) []
              (loadHashes w.lock).2).1 with
          | error e =>
            exact absurd (by rw [handleInit_of_validate_error w md H d e hdir hmeta hmods hl hv])
              hch
          | ok U =>
            refine ⟨d, md, H, U, rfl, rfl, hmods, rfl, hv, ?_⟩
            intro hU
            apply hch
            rw [handleInit_of_validate_ok w md H U d hdir hmeta hmods hl hv, if_pos hU]

/-! ## Properties of `handleInit` -/

/-- C8 (registry filter): the list of registry module keys `handleInit` builds is
the list of the keys of exactly those modules of the record whose `Source`
contains `registry.terraform.io` as a substring, in the order of the record,
with nothing added, dropped or merged. -/
theorem registryModules_eq_filter (metadata : ModulesMetadata) :
    registryModules metadata.Modules [] =
      (metadata.Modules.filter
        (fun m => decide (registryURL.toList <:+: m.Source.toList))).map Module.Key := by
  rw [registryModules_acc, List.nil_append]

/-- C9 (empty-set short-circuit): when the metadata record is valid and no module
source contains the registry host, `handleInit` returns `nil`, its trace holds no
access to the lock file, no digest computation and no call of terraform, and the
lock file is left as it was, whatever its state. -/
theorem handleInit_no_registry_module (w : World) (metadata : ModulesMetadata)
    (hmeta : w.metadata = .valid metadata)
    (hnone : ∀ m ∈ metadata.Modules, ¬ registryURL.toList <:+: m.Source.toList) :
    handleInit w = ⟨.returned none, [], w.lock⟩ := by
  have hmods : registryModules metadata.Modules [] = [] := by
    rw [registryModules_acc, List.nil_append, List.map_eq_nil_iff, List.filter_eq_nil_iff]
    intro m hm
    simpa using hnone m hm
  unfold handleInit
  cases hdir : w.stat modulesDir with
  | none => rfl
  | some d => simp [hmeta, hmods]

/-- Witness of C9: a record with only local and git sources, over a corrupt lock file. -/
theorem handleInit_no_registry_module_witness :
    handleInit localOnlyWorld = ⟨.returned none, [], .corrupt⟩ :=
  handleInit_no_registry_module localOnlyWorld
    ⟨[⟨"./modules/net", "net"⟩, ⟨"git::https://example.com/vpc.git", "vpc"⟩]⟩ rfl (by decide)

/-- C1 (tamper abort): if some registry module has a checkout, its name is in the
loaded mapping, and the recorded digest differs from the one `calculateHash`
returns, then `handleInit` returns an error, `writeLockFile` is not called and the
lock file on disk is what it was, wherever the module stands in the list. -/
theorem handleInit_tamper_abort (w : World) (hashes : GoMap) (moduleKey : String)
    (dir info : Node) (newHash previousHash : String)
    (hdir : w.stat modulesDir = some dir)
    (hmem : moduleKey ∈ w.registryKeys)
    (hloaded : w.loaded = some hashes)
    (hstat : w.stat (modulePathOf moduleKey) = some info)
    (hhash : calculateHash w.stat (modulePathOf moduleKey) = .ok newHash)
    (hprev : mapGet hashes (moduleNameOf moduleKey) = some previousHash)
    (hne : previousHash ≠ newHash) :
    (∃ e, (handleInit w).outcome = .returned (some e)) ∧
      (∀ m, Event.writeLock m ∉ (handleInit w).events) ∧
      (handleInit w).lock = w.lock := by
  obtain ⟨md, hmeta, hmods⟩ := metadata_of_registryKeys w (List.ne_nil_of_mem hmem)
  rw [registryKeys_of_valid w md hmeta] at hmem
  obtain ⟨e, he⟩ := validate_tamper w.stat hashes (registryModules md.Modules []) []
    (loadHashes w.lock).2 moduleKey info newHash previousHash hmem hstat hhash hprev hne
  rw [handleInit_of_validate_error w md hashes dir e hdir hmeta hmods hloaded he]
  refine ⟨⟨e, rfl⟩, ?_, rfl⟩
  intro m hm
  exact loadHashes_no_write w.lock m (validate_events _ _ _ _ _ m hm)

/-- Witness of C1: `mod-b` is accepted as new, then `mod-a` is found changed. -/
theorem handleInit_tamper_abort_witness :
    (∃ e, (handleInit (exampleWorld ["mod-b", "mod-a"] (.valid [("mod-a", "0000")]))).outcome =
        .returned (some e)) ∧
      (∀ m, Event.writeLock m ∉
        (handleInit (exampleWorld ["mod-b", "mod-a"] (.valid [("mod-a", "0000")]))).events) ∧
      (handleInit (exampleWorld ["mod-b", "mod-a"] (.valid [("mod-a", "0000")]))).lock =
        .valid [("mod-a", "0000")] :=
  handleInit_tamper_abort (exampleWorld ["mod-b", "mod-a"] (.valid [("mod-a", "0000")]))
    [("mod-a", "0000")] "mod-a" _ (exampleModule 1) digestA "0000"
    rfl (by decide) (by decide) rfl (by decide) (by decide) (by decide)

/-- A write of the lock file in the trace is the write of the map the loop returned. -/
theorem handleInit_written_inv (w : World) (H written : GoMap) (hl : w.loaded = some H)
    (hw : Event.writeLock written ∈ (handleInit w).events) :
    ∃ md, w.metadata = .valid md ∧
      (validate w.stat H (registryModules md.Modules []) [] (loadHashes w.lock).2).1 =
        .ok written := by
  cases hdir : w.stat modulesDir with
  | none => simp [handleInit, hdir] at hw
  | some d =>
    cases hmeta : w.metadata with
    | absent => simp [handleInit, hdir, hmeta] at hw
    | unreadable => simp [handleInit, hdir, hmeta] at hw
    | malformed => simp [handleInit, hdir, hmeta] at hw
    | valid md =>
      by_cases hmods : registryModules md.Modules [] = []
      · simp [handleInit, hdir, hmeta, hmods] at hw
      · have hnot : Event.writeLock written ∉
            (validate w.stat H (registryModules md.Modules []) [] (loadHashes w.lock).2).2 :=
          fun hm => loadHashes_no_write w.lock written (validate_events _ _ _ _ _ written hm)
        cases hv : (validate w.stat H (registryModules md.Modules []) []
            (loadHashes w.lock).2).1 with
        | error e =>
          rw [handleInit_of_validate_error w md H d e hdir hmeta hmods hl hv] at hw
          exact absurd hw hnot
        | ok U =>
          refine ⟨md, rfl, ?_⟩
          rw [handleInit_of_validate_ok w md H U d hdir hmeta hmods hl hv] at hw
          by_cases hU : U = []
          · rw [if_pos hU] at hw
            simp only [List.mem_append, List.mem_singleton, reduceCtorEq, or_false] at hw
            exact absurd hw hnot
          · rw [if_neg hU] at hw
            cases hf : w.writeFault with
            | none =>
              rw [hf] at hw
              simp only [List.mem_append, List.mem_cons, Event.writeLock.injEq, reduceCtorEq,
                List.mem_nil_iff, or_false] at hw
              rcases hw with hw | hw
              · exact absurd hw hnot
              · rw [hw]
                exact hv
            | some left =>
              rw [hf] at hw
              simp only [List.mem_append, List.mem_singleton, Event.writeLock.injEq] at hw
              rcases hw with hw | hw
              · exact absurd hw hnot
              · rw [hw]
                exact hv

/-- C2 (what a written lock file keeps of the loaded one): when `handleInit` writes
a lock file, the written mapping never changes the digest of a name of the loaded
mapping, and it carries the name forward, with the same digest, whenever the name
is that of a registry module with a checkout. The written mapping is built afresh:
each of its entries is the name and the digest of a registry module with a checkout,
so a name of the loaded mapping that belongs to no such module is not in it. -/
theorem handleInit_written_agrees (w : World) (hashes written : GoMap) (name digest : String)
    (hloaded : w.loaded = some hashes)
    (hwritten : Event.writeLock written ∈ (handleInit w).events)
    (hget : mapGet hashes name = some digest) :
    (∀ d, mapGet written name = some d → d = digest) ∧
      (∀ k ∈ w.registryKeys, ∀ info, w.stat (modulePathOf k) = some info →
        moduleNameOf k = name → mapGet written name = some digest) ∧
      (∀ n d, mapGet written n = some d →
        ∃ k ∈ w.registryKeys, ∃ info, w.stat (modulePathOf k) = some info ∧
          moduleNameOf k = n ∧ calculateHash w.stat (modulePathOf k) = .ok d) ∧
      ((∀ k ∈ w.registryKeys, ∀ info, w.stat (modulePathOf k) = some info →
          moduleNameOf k ≠ name) → mapGet written name = none) := by
  obtain ⟨md, hmeta, hv⟩ := handleInit_written_inv w hashes written hloaded hwritten
  rw [registryKeys_of_valid w md hmeta]
  have hcarry : ∀ k ∈ registryModules md.Modules [], ∀ info,
      w.stat (modulePathOf k) = some info → moduleNameOf k = name →
      calculateHash w.stat (modulePathOf k) = .ok digest := by
    intro k hk info hstat hname
    obtain ⟨h, hh, hp⟩ := validate_ok_inv w.stat hashes _ _ _ written hv k hk info hstat
    rw [hname] at hp
    rw [hh, hp digest hget]
  have horigin : ∀ n d, mapGet written n = some d →
      ∃ k ∈ registryModules md.Modules [], ∃ info, w.stat (modulePathOf k) = some info ∧
        moduleNameOf k = n ∧ calculateHash w.stat (modulePathOf k) = .ok d := by
    intro n d hd
    rcases validate_get_origin w.stat hashes _ _ _ written n d hv hd with h0 | h0
    · simp [mapGet] at h0
    · exact h0
  have hdropped : (∀ k ∈ registryModules md.Modules [], ∀ info,
      w.stat (modulePathOf k) = some info → moduleNameOf k ≠ name) →
      mapGet written name = none := by
    intro hnone
    cases hg : mapGet written name with
    | none => rfl
    | some d =>
      obtain ⟨k, hk, info, hs, hn, _⟩ := horigin name d hg
      exact absurd hn (hnone k hk info hs)
  refine ⟨?_, ?_, horigin, hdropped⟩
  · intro d hd
    obtain ⟨k, hk, info, hs, hn, hh⟩ := horigin name d hd
    have := hcarry k hk info hs hn
    rw [hh] at this
    cases this
    rfl
  · intro k hk info hstat hname
    obtain ⟨pre, post, hsplit⟩ := List.append_of_mem hk
    rw [hsplit] at hv
    have := validate_get_last w.stat hashes pre post k [] _ written info digest hv hstat
      (hcarry k hk info hstat hname) (fun k1 hk1 info1 h1 hs1 hn1 hh1 => by
        have hk1mem : k1 ∈ registryModules md.Modules [] := by
          rw [hsplit]
          exact List.mem_append_right _ (List.mem_cons_of_mem _ hk1)
        have := hcarry k1 hk1mem info1 hs1 (hn1.trans hname)
        rw [hh1] at this
        cases this
        rfl)
    rw [hname] at this
    exact this

/-- Witness of C2: `mod-a` is in the loaded mapping and has a checkout; the loaded
mapping also holds `old`, the name of no registry module. -/
theorem handleInit_written_agrees_witness :
    (∀ d, mapGet [("mod-a", digestA), ("mod-b", digestB)] "mod-a" = some d → d = digestA) ∧
      (∀ k ∈ (exampleWorld ["mod-a", "mod-b"] (.valid [("mod-a", digestA), ("old", "abc")])).registryKeys,
        ∀ info, statIn exampleCwd (modulePathOf k) = some info → moduleNameOf k = "mod-a" →
          mapGet [("mod-a", digestA), ("mod-b", digestB)] "mod-a" = some digestA) ∧
      (∀ n d, mapGet [("mod-a", digestA), ("mod-b", digestB)] n = some d →
        ∃ k ∈ (exampleWorld ["mod-a", "mod-b"]
            (.valid [("mod-a", digestA), ("old", "abc")])).registryKeys,
          ∃ info, statIn exampleCwd (modulePathOf k) = some info ∧
            moduleNameOf k = n ∧ calculateHash (statIn exampleCwd) (modulePathOf k) = .ok d) ∧
      ((∀ k ∈ (exampleWorld ["mod-a", "mod-b"]
            (.valid [("mod-a", digestA), ("old", "abc")])).registryKeys,
          ∀ info, statIn exampleCwd (modulePathOf k) = some info → moduleNameOf k ≠ "mod-a") →
        mapGet [("mod-a", digestA), ("mod-b", digestB)] "mod-a" = none) :=
  handleInit_written_agrees (exampleWorld ["mod-a", "mod-b"] (.valid [("mod-a", digestA), ("old", "abc")]))
    [("mod-a", digestA), ("old", "abc")] [("mod-a", digestA), ("mod-b", digestB)] "mod-a" digestA
    (by decide) (by decide) (by decide)

/-- Counterexample to C2 as stated: the loaded mapping holds `old`, the only registry
module is `mod-a`; the run succeeds and writes a mapping without `old`. -/
theorem handleInit_superset_counterexample :
    (exampleWorld ["mod-a"] (.valid [("old", "abc")])).loaded = some [("old", "abc")] ∧
      (handleInit (exampleWorld ["mod-a"] (.valid [("old", "abc")]))).outcome = .returned none ∧
      Event.writeLock [("mod-a", digestA)] ∈
        (handleInit (exampleWorld ["mod-a"] (.valid [("old", "abc")]))).events ∧
      (handleInit (exampleWorld ["mod-a"] (.valid [("old", "abc")]))).lock =
        .valid [("mod-a", digestA)] ∧
      mapGet [("old", "abc")] "old" = some "abc" ∧
      mapGet [("mod-a", digestA)] "old" = none := by
  decide

theorem withLock_self (w : World) : w.withLock w.lock = w := by
  cases w
  rfl

/-- C3 (idempotence): if a run succeeds and any two registry modules with a checkout
and the same name have the same digest, a second run over the same checkouts,
started from the lock file the first run left, succeeds too and leaves the same
lock file. -/
theorem handleInit_idempotent (w : World)
    (hok : (handleInit w).outcome = .returned none)
    (hsame : ∀ k ∈ w.registryKeys, ∀ k1 ∈ w.registryKeys,
      (w.stat (modulePathOf k)).isSome = true → (w.stat (modulePathOf k1)).isSome = true →
      moduleNameOf k = moduleNameOf k1 →
      calculateHash w.stat (modulePathOf k) = calculateHash w.stat (modulePathOf k1)) :
    (handleInit (w.withLock (handleInit w).lock)).outcome = .returned none ∧
      (handleInit (w.withLock (handleInit w).lock)).lock = (handleInit w).lock := by
  by_cases hch : (handleInit w).lock = w.lock
  · rw [hch, withLock_self]
    exact ⟨hok, hch⟩
  · obtain ⟨d, md, H, U, hdir, hmeta, hmods, hl, hv, hU⟩ := handleInit_lock_changed w hch
    have hrun := handleInit_of_validate_ok w md H U d hdir hmeta hmods hl hv
    rw [if_neg hU] at hrun
    cases hf : w.writeFault with
    | some left =>
      rw [hf] at hrun
      rw [hrun] at hok
      cases hok
    | none =>
      rw [hf] at hrun
      cases ht : w.terraformOk with
      | false =>
        rw [ht] at hrun
        rw [hrun] at hok
        cases hok
      | true =>
        rw [ht] at hrun
        have hlock : (handleInit w).lock = .valid U := by rw [hrun]
        rw [hlock]
        have hkeys := registryKeys_of_valid w md hmeta
        have hcompat : ∀ k ∈ registryModules md.Modules [], ∀ info h,
            w.stat (modulePathOf k) = some info → calculateHash w.stat (modulePathOf k) = .ok h →
            ∀ d, mapGet U (moduleNameOf k) = some d → d = h := by
          intro k hk info h hs hh d1 hd1
          rcases validate_get_origin w.stat H _ _ _ U _ d1 hv hd1 with h0 | ⟨k1, hk1, i1, hs1, hn1, hh1⟩
          · simp [mapGet] at h0
          · have := hsame k (hkeys ▸ hk) k1 (hkeys ▸ hk1) (by rw [hs]; rfl) (by rw [hs1]; rfl)
              hn1.symm
            rw [hh, hh1] at this
            cases this
            rfl
        have hv2 := validate_rerun w.stat H U (registryModules md.Modules []) []
          (loadHashes w.lock).2 (loadHashes (w.withLock (.valid U)).lock).2 U hv hcompat
        have hrun2 := handleInit_of_validate_ok (w.withLock (.valid U)) md U U d hdir hmeta hmods
          rfl hv2
        rw [if_neg hU] at hrun2
        have hf2 : (w.withLock (.valid U)).writeFault = none := hf
        have ht2 : (w.withLock (.valid U)).terraformOk = true := ht
        rw [hf2, ht2] at hrun2
        rw [hrun2]
        exact ⟨rfl, rfl⟩

/-- Witness of C3: two modules of different names, no lock file at first. -/
theorem handleInit_idempotent_witness :
    (handleInit ((exampleWorld ["mod-a", "mod-b"] .absent).withLock
        (handleInit (exampleWorld ["mod-a", "mod-b"] .absent)).lock)).outcome = .returned none ∧
      (handleInit ((exampleWorld ["mod-a", "mod-b"] .absent).withLock
        (handleInit (exampleWorld ["mod-a", "mod-b"] .absent)).lock)).lock =
        (handleInit (exampleWorld ["mod-a", "mod-b"] .absent)).lock :=
  handleInit_idempotent (exampleWorld ["mod-a", "mod-b"] .absent) (by decide) (by decide)

/-- Counterexample to C3 as stated: the keys `a/x` and `b/x` have the same last path
element and different contents; the first run succeeds and records the digest of
`b/x` under `x`, the second run then finds `a/x` changed. -/
theorem handleInit_idempotent_counterexample :
    (exampleWorld ["a/x", "b/x"] .absent).registryKeys = ["a/x", "b/x"] ∧
      moduleNameOf "a/x" = "x" ∧ moduleNameOf "b/x" = "x" ∧
      (handleInit (exampleWorld ["a/x", "b/x"] .absent)).outcome = .returned none ∧
      (handleInit ((exampleWorld ["a/x", "b/x"] .absent).withLock
        (handleInit (exampleWorld ["a/x", "b/x"] .absent)).lock)).outcome =
        .returned (some .hashConsistency) := by
  decide

/-- C4 (new-module acceptance): if a registry module has a checkout, its name is not
in the loaded mapping, every later module of the list with a checkout and the same
name has the same digest, and the run succeeds, then the lock file was written and
maps the name of the module to the digest `calculateHash` returned for it. -/
theorem handleInit_new_module_recorded (w : World) (hashes : GoMap) (pre post : List String)
    (moduleKey : String) (dir info : Node) (digest : String)
    (hdir : w.stat modulesDir = some dir)
    (hkeys : w.registryKeys = pre ++ moduleKey :: post)
    (hloaded : w.loaded = some hashes)
    (hstat : w.stat (modulePathOf moduleKey) = some info)
    (hhash : calculateHash w.stat (modulePathOf moduleKey) = .ok digest)
    (_hnew : mapGet hashes (moduleNameOf moduleKey) = none)
    (hlater : ∀ k ∈ post, (w.stat (modulePathOf k)).isSome = true →
      moduleNameOf k = moduleNameOf moduleKey →
      calculateHash w.stat (modulePathOf k) = .ok digest)
    (hok : (handleInit w).outcome = .returned none) :
    ∃ written, (handleInit w).lock = .valid written ∧
      Event.writeLock written ∈ (handleInit w).events ∧
      mapGet written (moduleNameOf moduleKey) = some digest := by
  obtain ⟨md, hmeta, hmods⟩ := metadata_of_registryKeys w (by rw [hkeys]; simp)
  rw [registryKeys_of_valid w md hmeta] at hkeys
  cases hv : (validate w.stat hashes (registryModules md.Modules []) []
      (loadHashes w.lock).2).1 with
  | error e =>
    rw [handleInit_of_validate_error w md hashes dir e hdir hmeta hmods hloaded hv] at hok
    cases hok
  | ok U =>
    have hget : mapGet U (moduleNameOf moduleKey) = some digest := by
      have hv1 := hv
      rw [hkeys] at hv1
      refine validate_get_last w.stat hashes pre post moduleKey [] _ U info digest hv1 hstat hhash ?_
      intro k1 hk1 info1 h1 hs1 hn1 hh1
      have := hlater k1 hk1 (by rw [hs1]; rfl) hn1
      rw [hh1] at this
      cases this
      rfl
    have hU : U ≠ [] := by
      intro hU
      rw [hU] at hget
      simp [mapGet] at hget
    have hrun := handleInit_of_validate_ok w md hashes U dir hdir hmeta hmods hloaded hv
    rw [if_neg hU] at hrun
    cases hf : w.writeFault with
    | some left =>
      rw [hf] at hrun
      rw [hrun] at hok
      cases hok
    | none =>
      rw [hf] at hrun
      rw [hrun]
      exact ⟨U, rfl, by simp, hget⟩

/-- Witness of C4: `mod-b` is new next to the recorded `mod-a`. -/
theorem handleInit_new_module_recorded_witness :
    ∃ written,
      (handleInit (exampleWorld ["mod-a", "mod-b"] (.valid [("mod-a", digestA)]))).lock =
        .valid written ∧
      Event.writeLock written ∈
        (handleInit (exampleWorld ["mod-a", "mod-b"] (.valid [("mod-a", digestA)]))).events ∧
      mapGet written (moduleNameOf "mod-b") = some digestB :=
  handleInit_new_module_recorded (exampleWorld ["mod-a", "mod-b"] (.valid [("mod-a", digestA)]))
    [("mod-a", digestA)] ["mod-a"] [] "mod-b" _ (exampleModule 2) digestB
    rfl (by decide) (by decide) rfl (by decide) (by decide) (by decide) (by decide)

/-- Counterexample to C4 as stated: `a/x` has a checkout and its name `x` is not in
the loaded mapping, the run succeeds, and the written mapping gives `x` the digest
of `b/x`, not the one `calculateHash` returned for `a/x`. -/
theorem handleInit_new_module_counterexample :
    "a/x" ∈ (exampleWorld ["a/x", "b/x"] .absent).registryKeys ∧
      (statIn exampleCwd (modulePathOf "a/x")).isSome = true ∧
      (exampleWorld ["a/x", "b/x"] .absent).loaded = some [] ∧
      mapGet [] (moduleNameOf "a/x") = none ∧
      calculateHash (statIn exampleCwd) (modulePathOf "a/x") =
        .ok "084fed08b978af4d7d196a7446a86b58009e636b611db16211b65a9aadff29c5" ∧
      (handleInit (exampleWorld ["a/x", "b/x"] .absent)).outcome = .returned none ∧
      (handleInit (exampleWorld ["a/x", "b/x"] .absent)).lock =
        .valid [("x", "e52d9c508c502347344d8c07ad91cbd6068afc75ff6292f062a09ca381c89e71")] ∧
      mapGet [("x", "e52d9c508c502347344d8c07ad91cbd6068afc75ff6292f062a09ca381c89e71")]
        (moduleNameOf "a/x") ≠
        some "084fed08b978af4d7d196a7446a86b58009e636b611db16211b65a9aadff29c5" := by
  decide

/-! ## Directory listings -/

theorem lookup_mem {es : List (String × Node)} {n : String} {c : Node}
    (h : es.lookup n = some c) : (n, c) ∈ es := by
  induction es with
  | nil => simp at h
  | cons p rest ih =>
    obtain ⟨k, v⟩ := p
    rw [List.lookup_cons] at h
    cases hk : (n == k) with
    | true =>
      rw [hk] at h
      have hnk : n = k := by simpa using hk
      cases h
      rw [hnk]
      exact List.mem_cons_self _ _
    | false =>
      rw [hk] at h
      exact List.mem_cons_of_mem _ (ih h)

theorem lookup_of_mem_nodup {es : List (String × Node)} {n : String} {c : Node}
    (hnd : (entryNames es).Nodup) (hmem : (n, c) ∈ es) : es.lookup n = some c := by
  induction es with
  | nil => simp at hmem
  | cons p rest ih =>
    obtain ⟨k, v⟩ := p
    simp only [entryNames, List.map_cons, List.nodup_cons] at hnd
    rw [List.lookup_cons]
    rcases List.mem_cons.1 hmem with h0 | h0
    · cases h0
      simp
    · have hne : n ≠ k := by
        intro hnk
        apply hnd.1
        rw [← hnk]
        exact List.mem_map_of_mem Prod.fst h0
      have hb : (n == k) = false := by simpa using hne
      rw [hb]
      exact ih hnd.2 h0

theorem lookup_eq_none_of_not_mem {es : List (String × Node)} {n : String}
    (h : n ∉ entryNames es) : es.lookup n = none := by
  cases hl : es.lookup n with
  | none => rfl
  | some c => exact absurd (List.mem_map_of_mem Prod.fst (lookup_mem hl)) h

theorem lookup_isSome_of_mem {es : List (String × Node)} {n : String}
    (h : n ∈ entryNames es) : ∃ c, es.lookup n = some c := by
  induction es with
  | nil => simp [entryNames] at h
  | cons p rest ih =>
    obtain ⟨k, v⟩ := p
    rw [List.lookup_cons]
    cases hk : (n == k) with
    | true => exact ⟨v, rfl⟩
    | false =>
      have hne : n ≠ k := by simpa using hk
      simp only [entryNames, List.map_cons, List.mem_cons] at h
      rcases h with h | h
      · exact absurd h hne
      · exact ih h

theorem lookup_perm {es es1 : List (String × Node)} (hp : es.Perm es1)
    (hnd : (entryNames es).Nodup) (n : String) : es.lookup n = es1.lookup n := by
  have hnd1 : (entryNames es1).Nodup := (hp.map Prod.fst).nodup_iff.1 hnd
  cases hl : es.lookup n with
  | none =>
    cases hl1 : es1.lookup n with
    | none => rfl
    | some c =>
      have := lookup_of_mem_nodup hnd (hp.mem_iff.2 (lookup_mem hl1))
      rw [hl] at this
      cases this
  | some c => exact (lookup_of_mem_nodup hnd1 (hp.mem_iff.1 (lookup_mem hl))).symm

/-- Lookup in a listing with one entry in the middle, for the name of that entry. -/
theorem lookup_middle_self (before after : List (String × Node)) (n : String) (c : Node)
    (h : n ∉ entryNames before) : (before ++ (n, c) :: after).lookup n = some c := by
  induction before with
  | nil => simp
  | cons p rest ih =>
    obtain ⟨k, v⟩ := p
    simp only [entryNames, List.map_cons, List.mem_cons, not_or] at h
    have hb : (n == k) = false := by simpa using h.1
    rw [List.cons_append, List.lookup_cons, hb]
    exact ih h.2

/-- Lookup in a listing with one entry in the middle, for another name. -/
theorem lookup_middle_ne (before after : List (String × Node)) (n m : String) (c : Node)
    (h : m ≠ n) : (before ++ (n, c) :: after).lookup m = (before ++ after).lookup m := by
  have hb : (m == n) = false := by simpa using h
  induction before with
  | nil => simp [List.lookup_cons, hb]
  | cons p rest ih =>
    obtain ⟨k, v⟩ := p
    rw [List.cons_append, List.cons_append, List.lookup_cons, List.lookup_cons, ih]

theorem entryNames_middle (before after : List (String × Node)) (n : String) (c : Node) :
    entryNames (before ++ (n, c) :: after) = entryNames before ++ n :: entryNames after := by
  simp [entryNames]

theorem entryNames_append (before after : List (String × Node)) :
    entryNames (before ++ after) = entryNames before ++ entryNames after := by
  simp [entryNames]

theorem depth_le_of_mem {es : List (String × Node)} {n : String} {c : Node}
    (h : (n, c) ∈ es) : c.depth ≤ entriesDepth es := by
  induction es with
  | nil => simp at h
  | cons p rest ih =>
    obtain ⟨k, v⟩ := p
    rw [entriesDepth]
    rcases List.mem_cons.1 h with h0 | h0
    · cases h0
      exact le_max_left _ _
    · exact le_trans (ih h0) (le_max_right _ _)

theorem depth_le_of_lookup {es : List (String × Node)} {n : String} {c : Node}
    (h : es.lookup n = some c) : c.depth ≤ entriesDepth es :=
  depth_le_of_mem (lookup_mem h)

theorem readable_of_mem {es : List (String × Node)} {n : String} {c : Node}
    (h : (n, c) ∈ es) (hr : entriesReadable es = true) : c.readable = true := by
  induction es with
  | nil => simp at h
  | cons p rest ih =>
    obtain ⟨k, v⟩ := p
    rw [entriesReadable, Bool.and_eq_true] at hr
    rcases List.mem_cons.1 h with h0 | h0
    · cases h0
      exact hr.1
    · exact ih h0 hr.2

theorem distinct_of_mem {es : List (String × Node)} {n : String} {c : Node}
    (h : (n, c) ∈ es) (hr : entriesDistinct es = true) : c.distinctNames = true := by
  induction es with
  | nil => simp at h
  | cons p rest ih =>
    obtain ⟨k, v⟩ := p
    rw [entriesDistinct, Bool.and_eq_true] at hr
    rcases List.mem_cons.1 h with h0 | h0
    · cases h0
      exact hr.1
    · exact ih h0 hr.2

/-! ## The walk -/

theorem walk_file (f : Nat) (name : String) (content : Option (List Byte)) (h : Hasher) :
    walk (f + 1) name (.file content) h = some (walkFn h name (.file content) none) := rfl

theorem walk_dir_hidden (f : Nat) (name : String) (es : List (String × Node)) (h : Hasher)
    (hh : isHidden name = true) :
    walk (f + 1) name (.dir es) h = some (h, some .skipDir) := by
  simp [walk, walkFn, Node.isDir, hh]

theorem walk_dir_visible (f : Nat) (name : String) (es : List (String × Node)) (h : Hasher)
    (hh : isHidden name = false) :
    walk (f + 1) name (.dir es) h = walkDir (walk f) es (readDirNames es) h := by
  simp [walk, walkFn, Node.isDir, hh]

theorem walkFn_file_name (h : Hasher) (name name1 : String) (content : Option (List Byte)) :
    walkFn h name (.file content) none = walkFn h name1 (.file content) none := by
  simp [walkFn, Node.isDir]

/-- The loop over the names gives the same result in two listings when, name by
name, the entries found are walked alike. -/
theorem walkDir_congr (W W1 : String → Node → Hasher → Option (Hasher × Option WalkErr))
    (es es1 : List (String × Node)) (ns ns1 : List String) (h : Hasher)
    (hrel : List.Forall₂ (fun m m1 =>
      (es.lookup m = none ∧ es1.lookup m1 = none) ∨
      ∃ c c1, es.lookup m = some c ∧ es1.lookup m1 = some c1 ∧ c.isDir = c1.isDir ∧
        ∀ h, W m c h = W1 m1 c1 h) ns ns1) :
    walkDir W es ns h = walkDir W1 es1 ns1 h := by
  induction hrel generalizing h with
  | nil => rfl
  | @cons m m1 l l1 hhead _ ih =>
    rcases hhead with ⟨h0, h1⟩ | ⟨c, c1, h0, h1, hd, hw⟩
    · simp [walkDir, h0, h1, walkFn]
    · simp only [walkDir, h0, h1, hw, hd]
      cases W1 m1 c1 h with
      | none => rfl
      | some r =>
        obtain ⟨h2, e⟩ := r
        cases e with
        | none => exact ih h2
        | some e =>
          simp only
          split_ifs
          · rfl
          · exact ih h2

theorem walkEquiv_file (name name1 : String) (content : Option (List Byte)) :
    WalkEquiv name (.file content) name1 (.file content) := by
  refine ⟨rfl, fun h f f1 hf hf1 => ?_⟩
  obtain ⟨g, rfl⟩ := Nat.exists_eq_succ_of_ne_zero (Nat.not_eq_zero_of_lt hf)
  obtain ⟨g1, rfl⟩ := Nat.exists_eq_succ_of_ne_zero (Nat.not_eq_zero_of_lt hf1)
  rw [walk_file, walk_file, walkFn_file_name h name name1]

/-- Two directories of the same name are walked alike when their sorted names
correspond one to one and the entries under corresponding names are walked alike. -/
theorem walkEquiv_dir (name : String) (es es1 : List (String × Node))
    (hrel : List.Forall₂ (fun m m1 =>
      (es.lookup m = none ∧ es1.lookup m1 = none) ∨
      ∃ c c1, es.lookup m = some c ∧ es1.lookup m1 = some c1 ∧ WalkEquiv m c m1 c1)
      (readDirNames es) (readDirNames es1)) :
    WalkEquiv name (.dir es) name (.dir es1) := by
  refine ⟨rfl, fun h f f1 hf hf1 => ?_⟩
  obtain ⟨g, rfl⟩ := Nat.exists_eq_succ_of_ne_zero (Nat.not_eq_zero_of_lt hf)
  obtain ⟨g1, rfl⟩ := Nat.exists_eq_succ_of_ne_zero (Nat.not_eq_zero_of_lt hf1)
  rw [Node.depth] at hf hf1
  cases hh : isHidden name with
  | true => rw [walk_dir_hidden _ _ _ _ hh, walk_dir_hidden _ _ _ _ hh]
  | false =>
    rw [walk_dir_visible _ _ _ _ hh, walk_dir_visible _ _ _ _ hh]
    apply walkDir_congr
    refine hrel.imp ?_
    intro m m1 hm
    rcases hm with hm | ⟨c, c1, h0, h1, hd, hw⟩
    · exact Or.inl hm
    · refine Or.inr ⟨c, c1, h0, h1, hd, fun h2 => hw h2 g g1 ?_ ?_⟩
      · have := depth_le_of_lookup h0
        omega
      · have := depth_le_of_lookup h1
        omega

theorem walkEquiv_refl_aux (n : Nat) : ∀ (name : String) (t : Node), t.depth ≤ n →
    WalkEquiv name t name t := by
  induction n with
  | zero =>
    intro name t ht
    cases t with
    | file content => exact walkEquiv_file name name content
    | dir es =>
      rw [Node.depth] at ht
      omega
  | succ n ih =>
    intro name t ht
    cases t with
    | file content => exact walkEquiv_file name name content
    | dir es =>
      rw [Node.depth] at ht
      apply walkEquiv_dir
      rw [List.forall₂_same]
      intro m _
      cases hl : es.lookup m with
      | none => exact Or.inl ⟨rfl, rfl⟩
      | some c =>
        refine Or.inr ⟨c, c, rfl, rfl, ih m c ?_⟩
        have := depth_le_of_lookup hl
        omega

theorem walkEquiv_refl (name : String) (t : Node) : WalkEquiv name t name t :=
  walkEquiv_refl_aux t.depth name t le_rfl

theorem walkEquiv_trans {name name1 name2 : String} {t t1 t2 : Node}
    (h01 : WalkEquiv name t name1 t1) (h12 : WalkEquiv name1 t1 name2 t2) :
    WalkEquiv name t name2 t2 :=
  ⟨h01.1.trans h12.1, fun h f f2 hf hf2 =>
    (h01.2 h f (t1.depth + 1) hf (Nat.lt_succ_self _)).trans
      (h12.2 h (t1.depth + 1) f2 (Nat.lt_succ_self _) hf2)⟩

/-- With enough fuel the walk returns. -/
theorem walk_isSome_aux (n : Nat) : ∀ (name : String) (t : Node) (h : Hasher) (f : Nat),
    t.depth ≤ n → t.depth < f → ∃ r, walk f name t h = some r := by
  induction n with
  | zero =>
    intro name t h f ht hf
    obtain ⟨g, rfl⟩ := Nat.exists_eq_succ_of_ne_zero (Nat.not_eq_zero_of_lt hf)
    cases t with
    | file content => exact ⟨_, walk_file g name content h⟩
    | dir es =>
      rw [Node.depth] at ht
      omega
  | succ n ih =>
    intro name t h f ht hf
    obtain ⟨g, rfl⟩ := Nat.exists_eq_succ_of_ne_zero (Nat.not_eq_zero_of_lt hf)
    cases t with
    | file content => exact ⟨_, walk_file g name content h⟩
    | dir es =>
      rw [Node.depth] at ht hf
      cases hh : isHidden name with
      | true => exact ⟨_, walk_dir_hidden g name es h hh⟩
      | false =>
        rw [walk_dir_visible g name es h hh]
        generalize readDirNames es = ns
        induction ns generalizing h with
        | nil => exact ⟨_, rfl⟩
        | cons m ms ihm =>
          cases hl : es.lookup m with
          | none =>
            simp only [walkDir, hl]
            exact ⟨_, rfl⟩
          | some c =>
            have hc := depth_le_of_lookup hl
            obtain ⟨r, hr⟩ := ih m c h g (by omega) (by omega)
            obtain ⟨h2, e⟩ := r
            simp only [walkDir, hl, hr]
            cases e with
            | none => exact ihm h2
            | some e =>
              simp only
              split_ifs
              · exact ⟨_, rfl⟩
              · exact ihm h2

theorem walk_isSome (name : String) (t : Node) (h : Hasher) :
    ∃ r, walk (t.depth + 1) name t h = some r :=
  walk_isSome_aux t.depth name t h _ le_rfl (Nat.lt_succ_self _)

theorem filepathWalk_congr (stat stat1 : String → Option Node) (path : String) (t t1 : Node)
    (h : Hasher) (hroot : stat path = some t) (hroot1 : stat1 path = some t1)
    (heq : WalkEquiv (filepathBase path) t (filepathBase path) t1) :
    filepathWalk stat path h = filepathWalk stat1 path h := by
  unfold filepathWalk
  rw [hroot, hroot1]
  simp only
  rw [heq.2 h (t.depth + 1) (t1.depth + 1) (Nat.lt_succ_self _) (Nat.lt_succ_self _)]

theorem calculateHash_congr (stat stat1 : String → Option Node) (path : String) (t t1 : Node)
    (hroot : stat path = some t) (hroot1 : stat1 path = some t1)
    (heq : WalkEquiv (filepathBase path) t (filepathBase path) t1) :
    calculateHash stat path = calculateHash stat1 path := by
  unfold calculateHash
  rw [filepathWalk_congr stat stat1 path t t1 [] hroot hroot1 heq]

/-- Replacing one entry by one that is walked alike, under the same name. -/
theorem walkEquiv_inside (name : String) (before after : List (String × Node)) (n : String)
    (c c1 : Node) (hc : WalkEquiv n c n c1) :
    WalkEquiv name (.dir (before ++ (n, c) :: after)) name (.dir (before ++ (n, c1) :: after)) := by
  apply walkEquiv_dir
  have hnames : readDirNames (before ++ (n, c1) :: after) =
      readDirNames (before ++ (n, c) :: after) := by
    unfold readDirNames
    have := entryNames_middle before after n c
    have := entryNames_middle before after n c1
    unfold entryNames at *
    simp_all
  rw [hnames, List.forall₂_same]
  intro m _
  by_cases hm : m = n
  · subst hm
    by_cases hb : m ∈ entryNames before
    · obtain ⟨x, hx⟩ := lookup_isSome_of_mem hb
      have e0 : (before ++ (m, c) :: after).lookup m = some x := by
        rw [List.lookup_append, hx]
        rfl
      have e1 : (before ++ (m, c1) :: after).lookup m = some x := by
        rw [List.lookup_append, hx]
        rfl
      exact Or.inr ⟨x, x, e0, e1, walkEquiv_refl m x⟩
    · exact Or.inr ⟨c, c1, lookup_middle_self before after m c hb,
        lookup_middle_self before after m c1 hb, hc⟩
  · have e0 := lookup_middle_ne before after n m c hm
    have e1 := lookup_middle_ne before after n m c1 hm
    cases hl : (before ++ after).lookup m with
    | none =>
      rw [hl] at e0 e1
      exact Or.inl ⟨e0, e1⟩
    | some x =>
      rw [hl] at e0 e1
      exact Or.inr ⟨x, x, e0, e1, walkEquiv_refl m x⟩

/-- Trees that differ only in enumeration order are walked alike. -/
theorem walkEquiv_of_reordered {t t1 : Node} (hr : Reordered t t1) :
    ∀ name, WalkEquiv name t name t1 := by
  induction hr with
  | same t => exact fun name => walkEquiv_refl name t
  | listing es es1 hnd hp =>
    intro name
    apply walkEquiv_dir
    have hnames : readDirNames es1 = readDirNames es :=
      sorted_names_unique
        (((readDirNames_perm es1).trans (hp.map Prod.fst).symm).trans (readDirNames_perm es).symm)
        (sorted_readDirNames es1) (sorted_readDirNames es)
    rw [hnames, List.forall₂_same]
    intro m _
    have hl := lookup_perm hp hnd m
    cases hl0 : es.lookup m with
    | none =>
      rw [hl0] at hl
      exact Or.inl ⟨rfl, hl.symm⟩
    | some c =>
      rw [hl0] at hl
      exact Or.inr ⟨c, c, rfl, hl.symm, walkEquiv_refl m c⟩
  | inside before after n c c1 _ ih =>
    exact fun name => walkEquiv_inside name before after n c c1 (ih n)
  | chain t t1 t2 _ _ ih01 ih12 =>
    exact fun name => walkEquiv_trans (ih01 name) (ih12 name)

/-- A name whose entry is a directory that the callback skips can be left out of the
loop over the names. -/
theorem walkDir_skip (W : String → Node → Hasher → Option (Hasher × Option WalkErr))
    (es : List (String × Node)) (l1 l2 : List String) (n : String) (sub : List (String × Node))
    (h : Hasher) (hl : es.lookup n = some (.dir sub))
    (hW : ∀ h, W n (.dir sub) h = some (h, some .skipDir)) :
    walkDir W es (l1 ++ n :: l2) h = walkDir W es (l1 ++ l2) h := by
  induction l1 generalizing h with
  | nil => simp [walkDir, hl, hW, Node.isDir]
  | cons m ms ih =>
    simp only [List.cons_append, walkDir]
    cases es.lookup m with
    | none => rfl
    | some c =>
      simp only
      cases W m c h with
      | none => rfl
      | some r =>
        obtain ⟨h2, e⟩ := r
        cases e with
        | none => exact ih h2
        | some e =>
          simp only
          split_ifs
          · rfl
          · exact ih h2

/-- Sorted names of a listing with one more entry. -/
theorem readDirNames_insert (before after : List (String × Node)) (n : String) (c : Node) :
    ∃ l1 l2, readDirNames (before ++ after) = l1 ++ l2 ∧
      readDirNames (before ++ (n, c) :: after) = l1 ++ n :: l2 := by
  refine ⟨(readDirNames (before ++ after)).takeWhile (fun b => ¬ nameLE n b),
    (readDirNames (before ++ after)).dropWhile (fun b => ¬ nameLE n b),
    (List.takeWhile_append_dropWhile _ _).symm, ?_⟩
  rw [← List.orderedInsert_eq_take_drop nameLE n]
  apply sorted_names_unique
  · refine (readDirNames_perm _).trans ?_
    rw [entryNames_middle]
    refine List.perm_middle.trans ?_
    refine List.Perm.trans ?_ (List.perm_orderedInsert nameLE n _).symm
    refine List.Perm.cons n ?_
    rw [← entryNames_append]
    exact (readDirNames_perm _).symm
  · exact sorted_readDirNames _
  · exact @List.Sorted.orderedInsert _ nameLE _ ⟨nameLE_total⟩ ⟨fun _ _ _ => nameLE_trans⟩ n _
      (sorted_readDirNames _)

/-- A directory with one more hidden directory among its entries is walked alike. -/
theorem walkEquiv_hidden_dir (name : String) (before after : List (String × Node)) (n : String)
    (sub : List (String × Node)) (hhid : isHidden n = true)
    (hfresh : n ∉ entryNames (before ++ after)) :
    WalkEquiv name (.dir (before ++ after)) name (.dir (before ++ (n, .dir sub) :: after)) := by
  have hnb : n ∉ entryNames before := by
    rw [entryNames_append] at hfresh
    exact fun hc => hfresh (List.mem_append_left _ hc)
  have hln := lookup_middle_self before after n (.dir sub) hnb
  refine ⟨rfl, fun h f f1 hf hf1 => ?_⟩
  obtain ⟨g, rfl⟩ := Nat.exists_eq_succ_of_ne_zero (Nat.not_eq_zero_of_lt hf)
  obtain ⟨g1, rfl⟩ := Nat.exists_eq_succ_of_ne_zero (Nat.not_eq_zero_of_lt hf1)
  rw [Node.depth] at hf hf1
  cases hh : isHidden name with
  | true => rw [walk_dir_hidden _ _ _ _ hh, walk_dir_hidden _ _ _ _ hh]
  | false =>
    rw [walk_dir_visible _ _ _ _ hh, walk_dir_visible _ _ _ _ hh]
    obtain ⟨l1, l2, e0, e1⟩ := readDirNames_insert before after n (.dir sub)
    have hsub := depth_le_of_lookup hln
    rw [Node.depth] at hsub
    obtain ⟨g2, rfl⟩ := Nat.exists_eq_succ_of_ne_zero (show g1 ≠ 0 by omega)
    rw [e1, walkDir_skip _ _ l1 l2 n sub h hln (fun h2 => walk_dir_hidden g2 n sub h2 hhid), ← e0]
    apply walkDir_congr
    rw [List.forall₂_same]
    intro m hm
    have hmn : m ≠ n := by
      intro hc
      rw [hc] at hm
      exact hfresh (mem_readDirNames.1 hm)
    have e2 := lookup_middle_ne before after n m (.dir sub) hmn
    cases hl : (before ++ after).lookup m with
    | none =>
      rw [hl] at e2
      exact Or.inl ⟨rfl, e2⟩
    | some c =>
      rw [hl] at e2
      refine Or.inr ⟨c, c, rfl, e2, rfl, fun h2 => (walkEquiv_refl m c).2 h2 g (g2 + 1) ?_ ?_⟩
      · have := depth_le_of_lookup hl
        omega
      · have := depth_le_of_lookup e2
        omega

/-- Two names of the same rank below the other names have the same rank above them. -/
theorem nameLE_flip {others : List String} {old new : String}
    (hold : old ∉ others) (hnew : new ∉ others)
    (hrank : ∀ n ∈ others, nameLE n old ↔ nameLE n new) :
    ∀ n ∈ others, nameLE old n ↔ nameLE new n := by
  intro n hn
  have hno : n ≠ old := fun hc => hold (hc ▸ hn)
  have hnn : n ≠ new := fun hc => hnew (hc ▸ hn)
  constructor
  · intro h
    rcases nameLE_total new n with h1 | h1
    · exact h1
    · exact absurd (nameLE_antisymm ((hrank n hn).2 h1) h) hno
  · intro h
    rcases nameLE_total old n with h1 | h1
    · exact h1
    · exact absurd (nameLE_antisymm ((hrank n hn).1 h1) h) hnn

/-- Renaming a file to a name of the same rank leaves the directory walked alike. -/
theorem walkEquiv_rename_here (name : String) (before after : List (String × Node))
    (old new : String) (content : Option (List Byte))
    (hold : old ∉ entryNames (before ++ after)) (hnew : new ∉ entryNames (before ++ after))
    (hrank : ∀ n ∈ entryNames (before ++ after), nameLE n old ↔ nameLE n new) :
    WalkEquiv name (.dir (before ++ (old, .file content) :: after)) name
      (.dir (before ++ (new, .file content) :: after)) := by
  have hflip := nameLE_flip hold hnew hrank
  have hob : old ∉ entryNames before := by
    rw [entryNames_append] at hold
    exact fun hc => hold (List.mem_append_left _ hc)
  have hnb : new ∉ entryNames before := by
    rw [entryNames_append] at hnew
    exact fun hc => hnew (List.mem_append_left _ hc)
  have hfix : ∀ m ∈ entryNames (before ++ after), (if m = old then new else m) = m := by
    intro m hm
    have hmo : m ≠ old := fun hc => hold (hc ▸ hm)
    rw [if_neg hmo]
  have hmem : ∀ m, m ∈ entryNames (before ++ (old, Node.file content) :: after) →
      m = old ∨ m ∈ entryNames (before ++ after) := by
    intro m hm
    rw [entryNames_middle] at hm
    rw [entryNames_append]
    simp only [List.mem_append, List.mem_cons] at hm ⊢
    tauto
  have hmap : (entryNames (before ++ (old, Node.file content) :: after)).map
      (fun m => if m = old then new else m) =
      entryNames (before ++ (new, Node.file content) :: after) := by
    rw [entryNames_middle, entryNames_middle, List.map_append, List.map_cons, if_pos rfl]
    rw [entryNames_append] at hfix
    congr 1
    · rw [List.map_congr_left (fun m hm => hfix m (List.mem_append_left _ hm)), List.map_id']
    · congr 1
      rw [List.map_congr_left (fun m hm => hfix m (List.mem_append_right _ hm)), List.map_id']
  have hsort : readDirNames (before ++ (new, Node.file content) :: after) =
      (readDirNames (before ++ (old, Node.file content) :: after)).map
        (fun m => if m = old then new else m) := by
    unfold readDirNames
    change List.insertionSort nameLE (entryNames (before ++ (new, Node.file content) :: after)) =
      List.map (fun m => if m = old then new else m)
        (List.insertionSort nameLE (entryNames (before ++ (old, Node.file content) :: after)))
    rw [← hmap]
    refine (List.map_insertionSort nameLE nameLE _ _ ?_).symm
    intro a ha b hb
    rcases hmem a ha with ha1 | ha1 <;> rcases hmem b hb with hb1 | hb1
    · rw [ha1, hb1]
      exact ⟨fun _ => nameLE_refl _, fun _ => nameLE_refl _⟩
    · rw [hfix b hb1, ha1, if_pos rfl]
      exact hflip b hb1
    · rw [hfix a ha1, hb1, if_pos rfl]
      exact hrank a ha1
    · rw [hfix a ha1, hfix b hb1]
  apply walkEquiv_dir
  rw [hsort, List.forall₂_map_right_iff, List.forall₂_same]
  intro m hm
  rcases hmem m (mem_readDirNames.1 hm) with hmo | hmo
  · subst hmo
    rw [if_pos rfl]
    exact Or.inr ⟨.file content, .file content, lookup_middle_self before after m _ hob,
      lookup_middle_self before after new _ hnb, walkEquiv_file m new content⟩
  · have hmo1 : m ≠ old := fun hc => hold (hc ▸ hmo)
    have hmn1 : m ≠ new := fun hc => hnew (hc ▸ hmo)
    rw [if_neg hmo1]
    have e0 := lookup_middle_ne before after old m (.file content) hmo1
    have e1 := lookup_middle_ne before after new m (.file content) hmn1
    cases hl : (before ++ after).lookup m with
    | none =>
      rw [hl] at e0 e1
      exact Or.inl ⟨e0, e1⟩
    | some x =>
      rw [hl] at e0 e1
      exact Or.inr ⟨x, x, e0, e1, walkEquiv_refl m x⟩

theorem walkEquiv_of_renamed {t t1 : Node} (hr : RenamedInPlace t t1) :
    ∀ name, WalkEquiv name t name t1 := by
  induction hr with
  | here before after old new content hold hnew hrank =>
    exact fun name => walkEquiv_rename_here name before after old new content hold hnew hrank
  | inside before after n c c1 _ ih =>
    exact fun name => walkEquiv_inside name before after n c c1 (ih n)

theorem walkEquiv_of_hiddenDirAdded {t t1 : Node} (hr : HiddenDirAdded t t1) :
    ∀ name, WalkEquiv name t name t1 := by
  induction hr with
  | here before after n sub hhid hfresh =>
    exact fun name => walkEquiv_hidden_dir name before after n sub hhid hfresh
  | inside before after n c c1 _ ih =>
    exact fun name => walkEquiv_inside name before after n c c1 (ih n)

/-! ## The digest against its reference definition -/

theorem referenceEntries_eq_map (es : List (String × Node)) :
    referenceEntries es = es.map (fun p => (p.1, referenceContents p.1 p.2)) := by
  induction es with
  | nil => rfl
  | cons p rest ih =>
    obtain ⟨k, v⟩ := p
    rw [referenceEntries, ih, List.map_cons]

theorem referenceEntries_names (es : List (String × Node)) :
    (referenceEntries es).map Prod.fst = entryNames es := by
  rw [referenceEntries_eq_map, List.map_map]
  rfl

theorem sorted_reference_names (es : List (String × Node)) :
    (List.insertionSort byName (referenceEntries es)).map Prod.fst = readDirNames es := by
  rw [List.map_insertionSort byName nameLE Prod.fst (referenceEntries es)
    (fun _ _ _ _ => Iff.rfl), referenceEntries_names]
  rfl

/-- The loop over the names appends the contributions of the entries in order, when
each entry is found and its walk appends its contribution. -/
theorem walkDir_reference (W : String → Node → Hasher → Option (Hasher × Option WalkErr))
    (es : List (String × Node)) (S : List (String × List Byte)) (h : Hasher)
    (hS : ∀ p ∈ S, ∃ c, es.lookup p.1 = some c ∧
      ∀ h, ∃ e, W p.1 c h = some (h ++ p.2, e) ∧
        (e = none ∨ (c.isDir = true ∧ e = some .skipDir))) :
    walkDir W es (S.map Prod.fst) h = some (h ++ S.flatMap Prod.snd, none) := by
  induction S generalizing h with
  | nil => simp [walkDir]
  | cons p S ih =>
    obtain ⟨c, hl, hw⟩ := hS p (List.mem_cons_self _ _)
    obtain ⟨e, he, hcase⟩ := hw h
    have ih1 := ih (h ++ p.2) (fun q hq => hS q (List.mem_cons_of_mem _ hq))
    simp only [List.map_cons, walkDir, hl, he, List.flatMap_cons]
    rcases hcase with h0 | ⟨hd, h0⟩
    · subst h0
      simp only
      rw [ih1, List.append_assoc]
    · subst h0
      simp only [hd, Bool.not_true, Bool.false_or, ne_eq, not_true_eq_false, decide_False,
        Bool.false_eq_true, if_false]
      rw [ih1, List.append_assoc]

theorem walk_reference_aux (n : Nat) : ∀ (name : String) (t : Node) (h : Hasher) (f : Nat),
    t.depth ≤ n → t.depth < f → t.readable = true → t.distinctNames = true →
    walk f name t h = some (h ++ referenceContents name t,
      if (t.isDir && isHidden name) = true then some .skipDir else none) := by
  induction n with
  | zero =>
    intro name t h f ht hf hr _
    obtain ⟨g, rfl⟩ := Nat.exists_eq_succ_of_ne_zero (Nat.not_eq_zero_of_lt hf)
    cases t with
    | file content =>
      cases content with
      | none => simp [Node.readable] at hr
      | some data => simp [walk_file, walkFn, Node.isDir, referenceContents]
    | dir es =>
      rw [Node.depth] at ht
      omega
  | succ n ih =>
    intro name t h f ht hf hr hd
    obtain ⟨g, rfl⟩ := Nat.exists_eq_succ_of_ne_zero (Nat.not_eq_zero_of_lt hf)
    cases t with
    | file content =>
      cases content with
      | none => simp [Node.readable] at hr
      | some data => simp [walk_file, walkFn, Node.isDir, referenceContents]
    | dir es =>
      rw [Node.depth] at ht hf
      rw [Node.readable] at hr
      rw [Node.distinctNames, Bool.and_eq_true, decide_eq_true_eq] at hd
      cases hh : isHidden name with
      | true =>
        rw [walk_dir_hidden g name es h hh, referenceContents, if_pos hh]
        simp [Node.isDir]
      | false =>
        rw [walk_dir_visible g name es h hh, referenceContents, ← sorted_reference_names]
        simp only [hh, Bool.false_eq_true, if_false, Node.isDir, Bool.and_false]
        apply walkDir_reference
        intro p hp
        rw [List.mem_insertionSort, referenceEntries_eq_map, List.mem_map] at hp
        obtain ⟨q, hq, rfl⟩ := hp
        obtain ⟨k, c⟩ := q
        refine ⟨c, lookup_of_mem_nodup hd.1 hq, fun h2 => ?_⟩
        have hdepth := depth_le_of_mem hq
        have hw := ih k c h2 g (by omega) (by omega) (readable_of_mem hq hr)
          (distinct_of_mem hq hd.2)
        refine ⟨_, hw, ?_⟩
        cases hc : (c.isDir && isHidden k) with
        | false => exact Or.inl (by simp)
        | true =>
          rw [Bool.and_eq_true] at hc
          exact Or.inr ⟨hc.1, by simp⟩

theorem calculateHash_eq_reference (stat : String → Option Node) (path : String) (tree : Node)
    (hroot : stat path = some tree) (hread : tree.readable = true)
    (hnames : tree.distinctNames = true) :
    calculateHash stat path = .ok (referenceDigest (filepathBase path) tree) := by
  have hw := walk_reference_aux tree.depth (filepathBase path) tree [] (tree.depth + 1) le_rfl
    (Nat.lt_succ_self _) hread hnames
  unfold calculateHash filepathWalk
  rw [hroot]
  simp only [hw, List.nil_append]
  cases (tree.isDir && isHidden (filepathBase path)) <;> rfl

theorem sha256_sum_length (msg : List Nat) : (Sha256.sum msg).length = 32 := by
  simp [Sha256.sum, Sha256.be]

theorem hexDigit_mem (n : Nat) : hexDigit n ∈ hextable := by
  unfold hexDigit
  by_cases hn : n < 16
  · interval_cases n <;> decide
  · rw [List.getD_eq_default _ _ (by simpa [hextable] using hn)]
    decide

theorem hexEncodeToString_length (src : List Nat) :
    (hexEncodeToString src).length = 2 * src.length := by
  unfold hexEncodeToString
  rw [String.length_mk]
  induction src with
  | nil => rfl
  | cons v rest ih =>
    rw [List.flatMap_cons, List.length_append, ih, List.length_cons]
    simp only [List.length_cons, List.length_nil]
    omega

theorem hexEncodeToString_chars (src : List Nat) :
    ∀ c ∈ (hexEncodeToString src).toList, c ∈ hextable := by
  intro c hc
  have hc1 : c ∈ src.flatMap (fun v => [hexDigit (v / 16), hexDigit (v % 16)]) := hc
  simp only [List.mem_flatMap, List.mem_cons, List.mem_singleton, List.not_mem_nil,
    or_false] at hc1
  obtain ⟨v, _, hv | hv⟩ := hc1
  · rw [hv]
    exact hexDigit_mem _
  · rw [hv]
    exact hexDigit_mem _

theorem hidden_root_walk (stat : String → Option Node) (path : String)
    (es : List (String × Node)) (hroot : stat path = some (.dir es))
    (hhid : isHidden (filepathBase path) = true) :
    filepathWalk stat path [] = ([], none) := by
  unfold filepathWalk
  rw [hroot]
  simp only [walk_dir_hidden _ _ _ _ hhid]

theorem hidden_root_digest (stat : String → Option Node) (path : String)
    (es : List (String × Node)) (hroot : stat path = some (.dir es))
    (hhid : isHidden (filepathBase path) = true) :
    calculateHash stat path = .ok emptyDigest := by
  unfold calculateHash
  rw [hidden_root_walk stat path es hroot hhid]
  have : hexEncodeToString (Hasher.sum []) = emptyDigest := by decide
  simp only [this]

/-! ## Properties of `calculateHash` -/

/-- C7 (reference definition and determinism): for a readable tree whose directories
hold distinct names, `calculateHash` returns the lowercase hexadecimal SHA-256, 64
characters long, of the contents of the regular files in the order of a
depth-first walk over name-sorted entries that enters no directory whose name
begins with a dot; and any tree that differs only in the enumeration order of its
directories gets the same digest. -/
theorem calculateHash_reference (stat : String → Option Node) (path : String) (tree : Node)
    (hroot : stat path = some tree) (hread : tree.readable = true)
    (hnames : tree.distinctNames = true) :
    calculateHash stat path = .ok (referenceDigest (filepathBase path) tree) ∧
      (referenceDigest (filepathBase path) tree).length = 64 ∧
      (∀ c ∈ (referenceDigest (filepathBase path) tree).toList, c ∈ hextable) ∧
      (∀ (stat1 : String → Option Node) (tree1 : Node), stat1 path = some tree1 →
        Reordered tree tree1 → calculateHash stat1 path = calculateHash stat path) := by
  refine ⟨calculateHash_eq_reference stat path tree hroot hread hnames, ?_, ?_, ?_⟩
  · unfold referenceDigest
    rw [hexEncodeToString_length, sha256_sum_length]
  · exact hexEncodeToString_chars _
  · intro stat1 tree1 hroot1 hre
    exact (calculateHash_congr stat stat1 path tree tree1 hroot hroot1
      (walkEquiv_of_reordered hre _)).symm

/-- Witness of C7: a tree with a nested directory, a hidden directory and a hidden
file, and the same tree enumerated in another order. -/
theorem calculateHash_reference_witness :
    calculateHash (statConst exampleTree) "mod" = .ok (referenceDigest "mod" exampleTree) ∧
      referenceContents "mod" exampleTree = [7, 1, 2, 4, 5, 3] ∧
      calculateHash (statConst exampleTreeReordered) "mod" =
        calculateHash (statConst exampleTree) "mod" :=
  ⟨(calculateHash_reference (statConst exampleTree) "mod" exampleTree rfl
      (by decide) (by decide)).1,
    by decide,
    (calculateHash_reference (statConst exampleTree) "mod" exampleTree rfl
      (by decide) (by decide)).2.2.2 (statConst exampleTreeReordered) exampleTreeReordered rfl
      (Reordered.listing _ _ (by decide) (List.Perm.swap _ _ _))⟩

/-- C5 (hidden directories do not affect the digest): adding a directory whose name
begins with a dot, with any subtree, under an unused name among the entries of the
module root or of a directory below it, or removing it, changes neither the bytes
fed to the hash nor the result of `calculateHash`. -/
theorem calculateHash_hidden_dir_ignored (stat stat1 : String → Option Node) (path : String)
    (tree tree1 : Node) (hroot : stat path = some tree) (hroot1 : stat1 path = some tree1)
    (hadd : HiddenDirAdded tree tree1) :
    filepathWalk stat path [] = filepathWalk stat1 path [] ∧
      calculateHash stat path = calculateHash stat1 path :=
  ⟨filepathWalk_congr stat stat1 path tree tree1 [] hroot hroot1 (walkEquiv_of_hiddenDirAdded hadd _),
    calculateHash_congr stat stat1 path tree tree1 hroot hroot1
      (walkEquiv_of_hiddenDirAdded hadd _)⟩

/-- Witness of C5: a `.git` directory added between the two files of a checkout. -/
theorem calculateHash_hidden_dir_ignored_witness :
    filepathWalk (statConst (twoFiles "a.tf")) "mod" [] =
        filepathWalk (statConst (.dir [("a.tf", .file (some [1])),
          (".git", .dir [("HEAD", .file (some [9]))]), ("c.tf", .file (some [2]))])) "mod" [] ∧
      calculateHash (statConst (twoFiles "a.tf")) "mod" =
        calculateHash (statConst (.dir [("a.tf", .file (some [1])),
          (".git", .dir [("HEAD", .file (some [9]))]), ("c.tf", .file (some [2]))])) "mod" :=
  calculateHash_hidden_dir_ignored (statConst (twoFiles "a.tf")) (statConst _) "mod"
    (twoFiles "a.tf") _ rfl rfl
    (HiddenDirAdded.here [("a.tf", .file (some [1]))] [("c.tf", .file (some [2]))] ".git"
      [("HEAD", .file (some [9]))] (by decide) (by decide))

/-- Counterexample to C5 as stated: a hidden regular file at the top of the checkout
is read and hashed; adding it changes the bytes fed to the hash and the digest. -/
theorem calculateHash_hidden_file_counterexample :
    isHidden ".gitignore" = true ∧
      (filepathWalk (statConst (.dir [("main.tf", .file (some [1]))])) "mod" []).1 = [1] ∧
      (filepathWalk (statConst (.dir [("main.tf", .file (some [1])),
        (".gitignore", .file (some [2]))])) "mod" []).1 = [2, 1] ∧
      calculateHash (statConst (.dir [("main.tf", .file (some [1]))])) "mod" = .ok digestA ∧
      calculateHash (statConst (.dir [("main.tf", .file (some [1])),
        (".gitignore", .file (some [2]))])) "mod" =
        .ok "25dfd29c09617dcc9852281c030e5b3037a338a4712a42a21c907f259c6412a0" := by
  decide

/-- C6 (rename invisibility): renaming a regular file within its directory, content
unchanged, to an unused name that sorts at the same place among the other names
of that directory leaves the digest unchanged. -/
theorem calculateHash_rename_in_place (stat stat1 : String → Option Node) (path : String)
    (tree tree1 : Node) (hroot : stat path = some tree) (hroot1 : stat1 path = some tree1)
    (hren : RenamedInPlace tree tree1) :
    calculateHash stat path = calculateHash stat1 path :=
  calculateHash_congr stat stat1 path tree tree1 hroot hroot1 (walkEquiv_of_renamed hren _)

/-- Witness of C6: `a.tf` renamed to `b.tf`, both before `c.tf`. -/
theorem calculateHash_rename_in_place_witness :
    calculateHash (statConst (twoFiles "a.tf")) "mod" =
      calculateHash (statConst (twoFiles "b.tf")) "mod" :=
  calculateHash_rename_in_place (statConst (twoFiles "a.tf")) (statConst (twoFiles "b.tf")) "mod"
    (twoFiles "a.tf") (twoFiles "b.tf") rfl rfl
    (RenamedInPlace.here [] [("c.tf", .file (some [2]))] "a.tf" "b.tf" (some [1])
      (by decide) (by decide) (by decide))

/-- Counterexample to C6 as stated: `a.tf` renamed to `z.tf`, an unused visible name,
now sorts after `c.tf`; the contents are hashed in the other order and the digest
changes. -/
theorem calculateHash_rename_counterexample :
    isHidden "a.tf" = false ∧ isHidden "z.tf" = false ∧
      "z.tf" ∉ entryNames [("a.tf", Node.file (some [1])), ("c.tf", Node.file (some [2]))] ∧
      calculateHash (statConst (twoFiles "a.tf")) "mod" =
        .ok "a12871fee210fb8619291eaea194581cbd2531e4b23759d225f6806923f63222" ∧
      calculateHash (statConst (twoFiles "z.tf")) "mod" =
        .ok "25dfd29c09617dcc9852281c030e5b3037a338a4712a42a21c907f259c6412a0" := by
  decide

/-- C10 (hidden-named module root): when the checkout of a module is a directory whose
name begins with a dot, `calculateHash` returns without error the SHA-256 of the
empty byte string whatever the directory holds, and the loop of `handleInit` finds
the module changed exactly when the loaded mapping holds another digest under its
name. -/
theorem calculateHash_hidden_root (stat : String → Option Node) (moduleKey : String)
    (es : List (String × Node)) (hashes : GoMap) (rest : List String) (upd : GoMap)
    (ev : List Event)
    (hroot : stat (modulePathOf moduleKey) = some (.dir es))
    (hhid : isHidden (moduleNameOf moduleKey) = true) :
    calculateHash stat (modulePathOf moduleKey) = .ok emptyDigest ∧
      emptyDigest = hexEncodeToString (Sha256.sum []) ∧
      ((∀ d, mapGet hashes (moduleNameOf moduleKey) = some d → d = emptyDigest) →
        validate stat hashes (moduleKey :: rest) upd ev =
          validate stat hashes rest (mapSet upd (moduleNameOf moduleKey) emptyDigest)
            (ev ++ [.hash (modulePathOf moduleKey)])) ∧
      (∀ d, mapGet hashes (moduleNameOf moduleKey) = some d → d ≠ emptyDigest →
        validate stat hashes (moduleKey :: rest) upd ev =
          (.error .hashConsistency, ev ++ [.hash (modulePathOf moduleKey)])) := by
  have hd := hidden_root_digest stat (modulePathOf moduleKey) es hroot hhid
  refine ⟨hd, by decide, ?_, ?_⟩
  · intro hprev
    exact validate_accept stat hashes moduleKey rest upd ev _ emptyDigest hroot hd hprev
  · intro d hprev hne
    exact validate_changed stat hashes moduleKey rest upd ev _ emptyDigest d hroot hd hprev hne

/-- Witness of C10: the module `.m` of the example working directory. -/
theorem calculateHash_hidden_root_witness :
    calculateHash (statIn exampleCwd) (modulePathOf ".m") = .ok emptyDigest ∧
      emptyDigest = hexEncodeToString (Sha256.sum []) ∧
      ((∀ d, mapGet [] (moduleNameOf ".m") = some d → d = emptyDigest) →
        validate (statIn exampleCwd) [] [".m", "mod-a"] [] [] =
          validate (statIn exampleCwd) [] ["mod-a"] (mapSet [] (moduleNameOf ".m") emptyDigest)
            ([] ++ [.hash (modulePathOf ".m")])) ∧
      (∀ d, mapGet [] (moduleNameOf ".m") = some d → d ≠ emptyDigest →
        validate (statIn exampleCwd) [] [".m", "mod-a"] [] [] =
          (.error .hashConsistency, [] ++ [.hash (modulePathOf ".m")])) :=
  calculateHash_hidden_root (statIn exampleCwd) ".m" _ [] ["mod-a"] [] [] rfl (by decide)

/-- Counterexample to C10 as stated: the checkout `.m` is a directory with a hidden
name, the lock file records another digest under `.m`, and `handleInit` finds the
module changed. -/
theorem handleInit_hidden_root_counterexample :
    (exampleWorld [".m"] (.valid [(".m", "00")])).registryKeys = [".m"] ∧
      (statIn exampleCwd (modulePathOf ".m")).map Node.isDir = some true ∧
      isHidden (moduleNameOf ".m") = true ∧
      calculateHash (statIn exampleCwd) (modulePathOf ".m") = .ok emptyDigest ∧
      (handleInit (exampleWorld [".m"] (.valid [(".m", "00")]))).outcome =
        .returned (some .hashConsistency) := by
  decide

end IntegrityChecker
